import Mathlib

/-!
Verification development for the bunner-router-rs route-matching engine.

The Rust sources are shallowly embedded below.  Paths and strings are
byte lists (`List Nat`, each element a byte value); `u16` arithmetic is
`Nat` with explicit `% 65536` where the source performs `u16` operations.
The embedding covers:

* `src/path/normalize.rs` — `normalize_path`, `process_byte`,
  `finalize_segment`, `decode_hex_pair` (options included);
* `src/pattern.rs` — `SegmentPart`, `SegmentPattern`, `parse_segment`,
  `pattern_score`, `pattern_compatible_policy`, `match_segment`;
* `src/radix/insert.rs` — `RadixTree::insert`, `insert_parsed`,
  `insert_parsed_preassigned`, `prepare_path_segments_standalone`,
  `assign_route_key`, `handle_wildcard_insert` (and preassigned twins),
  `record_route_worker_raw`, `find_or_create_pattern_child`;
* `src/radix_tree.rs` — `insert_bulk`, `MAX_ROUTES`;
* `src/radix_tree/builder.rs`, `compression.rs`, `static_map.rs` —
  `finalize`, `compress_node`, `collect_static`, `count_static`;
* `src/readonly.rs` — `RouterReadOnly::find`, `ReadOnlyNode::from_node`,
  `find_from`, `handle_end`, `skip_slashes`;
* `src/lib.rs` — the `Router` facade (`add`, `add_bulk`, `seal`, `find`).

Representation notes (each justified by an invariant of the source):
* A node's static children live in one association list.  The source
  splits them across an inline vector and a hash map (`node.rs:131-149`)
  and keeps index mirrors; all views hold the same key → child map, and
  every reader (`descend_static_mut_with_alloc`, `from_node`,
  `compress_node`, `collect_static`) treats them as one map, so the
  embedding uses the single list.  The interner-based sorting of the
  inline vector only permutes that list and no semantics below reads
  its order, so it is not modelled.
* Node `flags` (sealed/dirty) only gate index rebuilding inside
  `finalize`; the observable effect of the rebuilt indices is already
  reflected in `fromNode`.  The tree-level `sealed` flag is kept because
  `insert`/`finalize` branch on the root flag.
* `method_mask` and the root pruning bitmaps are built by `finalize`
  but never read by `RouterReadOnly::find`, so they are not modelled.
* Thread-local buffers and the interner are invisible to the results of
  the functions modelled here.
-/

/-! ## Bytes -/

abbrev Bytes := List Nat

/-- ASCII string literal to byte list (used only for concrete ASCII inputs). -/
def bstr (s : String) : Bytes := s.data.map Char.toNat

/-- Mirrors `RouterErrorCode` / `PathError` of `src/errors/mod.rs` and
`src/path/error.rs`, keeping only the discriminants (payloads carry
diagnostic context the theorems do not inspect). -/
inductive ErrCode where
  | empty
  | controlOrWhitespace
  | invalidPercentEncoding
  | invalidUtf8AfterDecoding
  | invalidParentTraversal
  | alreadySealed
  | invalidPath
  | invalidParamName
  | invalidWildcard
  | duplicatedPath
  | paramNameConflicted
  | patternTooLong
  | duplicateParamName
  | maxRoutesExceeded
  | pathNotFound
  | notSealed
deriving DecidableEq, Repr

instance {e a : Type} [DecidableEq e] [DecidableEq a] : DecidableEq (Except e a) :=
  fun x y =>
    match x, y with
    | .ok u, .ok v =>
      if h : u = v then isTrue (by rw [h]) else isFalse (fun hc => h (Except.ok.inj hc))
    | .error u, .error v =>
      if h : u = v then isTrue (by rw [h]) else isFalse (fun hc => h (Except.error.inj hc))
    | .ok _, .error _ => isFalse (fun hc => Except.noConfusion hc)
    | .error _, .ok _ => isFalse (fun hc => Except.noConfusion hc)

/-- `HttpMethod` of `src/enums.rs`: seven variants mapped to 0..6. -/
inductive Method where
  | get | post | put | delete | patch | head | options
deriving DecidableEq, Repr

def Method.idx : Method → Nat
  | .get => 0
  | .post => 1
  | .put => 2
  | .delete => 3
  | .patch => 4
  | .head => 5
  | .options => 6

theorem Method.idx_lt (m : Method) : m.idx < 7 := by cases m <;> simp [Method.idx]

/-! ## Path normalizer (`src/path/normalize.rs`) -/

/-- `NormalizationOptions` (`normalize.rs:3-22`). -/
structure NormOptions where
  decodePercent : Bool
  normalizePath : Bool
  allowDuplicateSlash : Bool
  strictTrailingSlash : Bool
  caseSensitive : Bool
deriving DecidableEq, Repr

def defaultNormOptions : NormOptions :=
  { decodePercent := false, normalizePath := true, allowDuplicateSlash := false
    strictTrailingSlash := false, caseSensitive := true }

/-- Loop state of `normalize_path`: the output buffer, `prev_was_slash`,
`segment_start` and `saw_parent_traversal`. -/
structure NormSt where
  out : Bytes
  prev : Bool
  segStart : Nat
  saw : Bool
deriving DecidableEq, Repr

/-- `finalize_segment` (`normalize.rs:149-158`): flag a completed `..` segment. -/
def dotdotAt (out : Bytes) (segStart : Nat) : Bool :=
  decide (segStart < out.length) && decide (out.length - segStart = 2)
    && decide (out.drop segStart = [46, 46])

/-- `process_byte` (`normalize.rs:111-147`). -/
def procByte (b : Nat) (o : NormOptions) (st : NormSt) : Except ErrCode NormSt :=
  if b = 47 then
    if o.normalizePath && !o.allowDuplicateSlash && st.prev then .ok st
    else
      .ok { out := st.out ++ [47], prev := true
            segStart := st.out.length + 1
            saw := st.saw || dotdotAt st.out st.segStart }
  else if b ≤ 32 then .error .controlOrWhitespace
  else
    let v := if !o.caseSensitive && 65 ≤ b && b ≤ 90 then b + 32 else b
    .ok { st with out := st.out ++ [v], prev := false }

/-- `decode_hex_pair` (`normalize.rs:160-171`). -/
def decodeHexPair (hi lo : Nat) : Option Nat :=
  let val (b : Nat) : Option Nat :=
    if 48 ≤ b ∧ b ≤ 57 then some (b - 48)
    else if 97 ≤ b ∧ b ≤ 102 then some (b - 97 + 10)
    else if 65 ≤ b ∧ b ≤ 70 then some (b - 65 + 10)
    else none
  match val hi, val lo with
  | some h, some l => some (h * 16 + l)
  | _, _ => none

/-- The byte loop of `normalize_path` (`normalize.rs:37-77`). -/
def normLoop (o : NormOptions) : Bytes → NormSt → Except ErrCode NormSt
  | [], st => .ok st
  | b :: rest, st =>
    if o.decodePercent ∧ b = 37 then
      match rest with
      | hi :: lo :: rest2 =>
        match decodeHexPair hi lo with
        | some v =>
          match procByte v o st with
          | .ok st2 => normLoop o rest2 st2
          | .error e => .error e
        | none => .error .invalidPercentEncoding
      | _ => .error .invalidPercentEncoding
    else
      match procByte b o st with
      | .ok st2 => normLoop o rest st2
      | .error e => .error e

/-- Trailing-slash trimming (`normalize.rs:81-85`): pop `/` while the
buffer is longer than one byte, written on the reversed list. -/
def dropRevSlashes : Bytes → Bytes
  | 47 :: rest => if rest = [] then [47] else dropRevSlashes rest
  | l => l

def trimSlashes (l : Bytes) : Bytes := (dropRevSlashes l.reverse).reverse

/-- UTF-8 validity of a byte list, as checked by `String::from_utf8`
(`normalize.rs:91-94`). -/
def utf8Run : Bytes → Nat → Nat → Nat → Bool
  | [], need, _, _ => need = 0
  | b :: r, need, lo, hi =>
    if need = 0 then
      if b < 128 then utf8Run r 0 0 0
      else if 194 ≤ b ∧ b ≤ 223 then utf8Run r 1 128 191
      else if b = 224 then utf8Run r 2 160 191
      else if (225 ≤ b ∧ b ≤ 236) ∨ b = 238 ∨ b = 239 then utf8Run r 2 128 191
      else if b = 237 then utf8Run r 2 128 159
      else if b = 240 then utf8Run r 3 144 191
      else if 241 ≤ b ∧ b ≤ 243 then utf8Run r 3 128 191
      else if b = 244 then utf8Run r 3 128 143
      else false
    else
      if lo ≤ b ∧ b ≤ hi then utf8Run r (need - 1) 128 191 else false

def utf8Valid (l : Bytes) : Bool := utf8Run l 0 0 0

/-- `normalize_path` (`normalize.rs:26-104`). -/
def normalizePath (p : Bytes) (o : NormOptions) : Except ErrCode Bytes :=
  if p = [] then .error .empty
  else
    match normLoop o p ⟨[], false, 0, false⟩ with
    | .error e => .error e
    | .ok st =>
      let saw2 := st.saw || dotdotAt st.out st.segStart
      let out2 := if o.normalizePath && !o.strictTrailingSlash then trimSlashes st.out else st.out
      if out2 = [] then .error .empty
      else if !(utf8Valid out2) then .error .invalidUtf8AfterDecoding
      else if saw2 then .error .invalidParentTraversal
      else .ok out2

/-- `normalize_and_validate_path` (`normalize.rs:107-109`). -/
def normalizeDefault (p : Bytes) : Except ErrCode Bytes :=
  normalizePath p defaultNormOptions

/-! ## Segment patterns (`src/pattern.rs`) -/

/-- `SegmentPart` (`pattern.rs:13-16`). -/
inductive SegPart where
  | lit (s : Bytes)
  | param (name : Bytes)
deriving DecidableEq, Repr

/-- `SegmentPattern` (`pattern.rs:18-21`); its `PartialEq` is structural
equality of the parts, which the derived equality provides. -/
structure SegPattern where
  parts : List SegPart
deriving DecidableEq, Repr

/-- The wildcard sentinel as a parsed segment: the single literal `*`. -/
def wildPat : SegPattern := ⟨[SegPart.lit [42]]⟩

/-- `pattern_score` (`pattern.rs:49-83`); `u16` additions wrap modulo
65536 and `saturating_sub` is natural subtraction. -/
def patternScore (p : SegPattern) : Nat :=
  let lastLit := (p.parts.reverse.findSome? fun pp =>
    match pp with
    | .lit l => some (l.length % 65536)
    | _ => none).getD 0
  let s1 := (p.parts.enum.foldl (fun acc ia =>
    match ia.2 with
    | .lit l => (acc + ((if ia.1 = 0 then 600 else 120) + l.length % 65536) % 65536) % 65536
    | .param _ => (acc + 8) % 65536) 0)
  let paramCount := (p.parts.filter fun pp =>
    match pp with
    | .param _ => true
    | _ => false).length
  let s2 := (s1 + (32 - min lastLit 32) * 2) % 65536
  if paramCount > 0 then s2 - ((paramCount - 1) * 6) % 65536 else s2

/-- `pattern_compatible_policy` (`pattern.rs:85-101`). -/
def patternCompatiblePolicy (a b : SegPattern) : Bool :=
  if a.parts.length ≠ b.parts.length then true
  else (a.parts.zip b.parts).all fun pp =>
    match pp with
    | (.param na, .param nb) => na = nb
    | _ => true

/-- `pattern_is_pure_static` (`pattern.rs:103-111`). -/
def patternIsPureStatic (p : SegPattern) (keySeg : Bytes) : Bool :=
  match p.parts with
  | [.lit l] => l = keySeg
  | _ => false

/-- Prefix test on byte lists (the slice comparisons and `starts_with`
of the source). -/
def leadsWith : Bytes → Bytes → Bool
  | [], _ => true
  | _ :: _, [] => false
  | a :: as_, b :: bs => a = b && leadsWith as_ bs

/-- First index at which `needle` occurs in `hay`: the semantics of both
`memchr::memchr` (single byte) and `memchr::memmem::find`
(`pattern.rs:146-161`). -/
def findSub (needle hay : Bytes) : Option Nat :=
  if leadsWith needle hay then some 0
  else
    match hay with
    | [] => none
    | _ :: t => (findSub needle t).map (· + 1)

/-- `is_valid_segment_length` (`node.rs:34-36`): at most 255 bytes. -/
def validSegLen (n : Nat) : Bool := n ≤ 255

/-- One capture: parameter name and `(offset, length)` within the path. -/
abbrev Caps := List (Bytes × Nat × Nat)

/-- End position of a parameter span (`pattern.rs:136-162`): up to the
first occurrence of the next literal when one follows, else to the end
of the segment. -/
def paramEnd (seg : Bytes) (i : Nat) (rest : List SegPart) : Option Nat :=
  match rest with
  | .lit l :: _ => (findSub l (seg.drop i)).map (i + ·)
  | _ => some seg.length

/-- The part loop of `match_segment` (`pattern.rs:114-186`).  The source
keeps two cursors `i`/`i_l` into `seg` and its case-folded twin `seg_l`;
at the only call site (`readonly.rs:247`) both strings are the same
segment, so one cursor suffices. -/
def matchParts (seg : Bytes) : List SegPart → Nat → Option Caps
  | [], i => if i = seg.length then some [] else none
  | .lit l :: rest, i =>
    if i + l.length > seg.length then none
    else if leadsWith l (seg.drop i) then matchParts seg rest (i + l.length)
    else none
  | .param nm :: rest, i =>
    match paramEnd seg i rest with
    | none => none
    | some e =>
      if e < i then none
      else if i = e then none
      else if !validSegLen (e - i) then none
      else (matchParts seg rest e).map (fun out => (nm, i, e - i) :: out)

/-- `match_segment` (`pattern.rs:114-186`). -/
def matchSeg (seg : Bytes) (p : SegPattern) : Option Caps := matchParts seg p.parts 0

/-- `parse_segment` (`pattern.rs:189-304`).  Byte 40/41 are parentheses,
58 is the colon, 95 the underscore. -/
def identStart (b : Nat) : Bool :=
  (65 ≤ b ∧ b ≤ 90) || (97 ≤ b ∧ b ≤ 122) || b = 95

def identChar (b : Nat) : Bool :=
  (48 ≤ b ∧ b ≤ 57) || (65 ≤ b ∧ b ≤ 90) || (97 ≤ b ∧ b ≤ 122) || b = 95

def parseSegment (t : Bytes) : Except ErrCode SegPattern :=
  if t.contains 40 || t.contains 41 then .error .invalidPath
  else
    match t with
    | 58 :: nameBytes =>
      if nameBytes = [] then .error .invalidParamName
      else if nameBytes.contains 58 then .error .invalidParamName
      else if !identStart (nameBytes.headD 0) then .error .invalidParamName
      else if !(nameBytes.tail.all identChar) then .error .invalidParamName
      else .ok ⟨[SegPart.param nameBytes]⟩
    | _ =>
      if t.contains 58 then .error .invalidParamName
      else .ok ⟨[SegPart.lit t]⟩

/-! ## Mutable radix tree (`src/radix/node.rs`, `src/radix/insert.rs`) -/

/-- `RadixTreeNode` (`node.rs:49-88`) restricted to the semantically
observable fields: static children (one association list, see the header
note), dynamic patterns with their child nodes, the stale `pattern_meta`
score list consulted by `find_or_create_pattern_child`, the `+1`-encoded
per-method `routes`/`wildcard_routes` arrays, and the fusion pair set by
`compress_node`. -/
inductive MNode where
  | mk (statics : List (Bytes × MNode))
       (pats : List (SegPattern × MNode))
       (pmeta : List Nat)
       (routes : List Nat)
       (wroutes : List Nat)
       (fusedEdge : Option Bytes)
       (fusedChild : Option MNode)
deriving Repr

def MNode.statics : MNode → List (Bytes × MNode)
  | .mk st _ _ _ _ _ _ => st

def MNode.pats : MNode → List (SegPattern × MNode)
  | .mk _ p _ _ _ _ _ => p

def MNode.pmeta : MNode → List Nat
  | .mk _ _ pm _ _ _ _ => pm

def MNode.routesL : MNode → List Nat
  | .mk _ _ _ r _ _ _ => r

def MNode.wroutesL : MNode → List Nat
  | .mk _ _ _ _ w _ _ => w

def MNode.fusedEdge : MNode → Option Bytes
  | .mk _ _ _ _ _ fe _ => fe

def MNode.fusedChild : MNode → Option MNode
  | .mk _ _ _ _ _ _ fc => fc

def zeros7 : List Nat := List.replicate 7 0

/-- A fresh node as produced by the arena allocator (`Default`). -/
def emptyNode : MNode := .mk [] [] [] zeros7 zeros7 none none

def MNode.withStatics : MNode → List (Bytes × MNode) → MNode
  | .mk _ p pm r w fe fc, st => .mk st p pm r w fe fc

def MNode.withPats : MNode → List (SegPattern × MNode) → MNode
  | .mk st _ pm r w fe fc, p => .mk st p pm r w fe fc

def MNode.setRoute : MNode → Nat → Nat → MNode
  | .mk st p pm r w fe fc, mi, v => .mk st p pm (r.set mi v) w fe fc

def MNode.setWRoute : MNode → Nat → Nat → MNode
  | .mk st p pm r w fe fc, mi, v => .mk st p pm r (w.set mi v) fe fc

/-- Association-list lookup (the uniform view of the static-children
map). -/
def aFind {α : Type} (l : List (Bytes × α)) (k : Bytes) : Option α :=
  match l with
  | [] => none
  | (k2, c) :: rest => if k2 = k then some c else aFind rest k

/-- Replace the binding of `k` (first occurrence) or append a new one:
the update performed by `descend_static_mut_with_alloc` (`node.rs:123-149`). -/
def aSet {α : Type} (l : List (Bytes × α)) (k : Bytes) (v : α) : List (Bytes × α) :=
  match l with
  | [] => [(k, v)]
  | (k2, c) :: rest => if k2 = k then (k2, v) :: rest else (k2, c) :: aSet rest k v

/-- Index of the first pattern structurally equal to `p`
(`insert.rs:272`). -/
def idxOfPat (l : List (SegPattern × MNode)) (p : SegPattern) : Option Nat :=
  match l with
  | [] => none
  | (q, _) :: rest => if q = p then some 0 else (idxOfPat rest p).map (· + 1)

/-- `record_route_worker_raw` (`insert.rs:458-475`). -/
def sideRecord (side : List (Option Nat)) (k w : Nat) : List (Option Nat) :=
  let side2 := if side.length < k + 1 then side ++ List.replicate (k + 1 - side.length) none
               else side
  if side2.getD k none = none then side2.set k (some w) else side2

def sideGet (side : List (Option Nat)) (k : Nat) : Option Nat := side.getD k none

/-- `next_route_key` plus the worker side table: the mutable state
threaded through the insert helpers. -/
structure TState where
  next : Nat
  side : List (Option Nat)
deriving Repr

/-- `MAX_ROUTES` (`radix_tree.rs:25`). -/
def maxRoutes : Nat := 65535

/-- `assign_route_key` (`insert.rs:384-428`).  The method-mask update it
performs is recomputed wholesale by `finalize` and never read before
then, so it is not tracked. -/
def assignRouteKey (w : Nat) (m : Method) (n : MNode) (st : TState) :
    (Except ErrCode Nat) × MNode × TState :=
  let mi := m.idx
  let cur := n.routesL.getD mi 0
  if cur ≠ 0 then
    let ek := cur - 1
    if sideGet st.side ek = some w then (.error .duplicatedPath, n, st)
    else (.ok ek, n, st)
  else if st.next = maxRoutes then (.error .maxRoutesExceeded, n, st)
  else
    let key := st.next
    (.ok key, n.setRoute mi ((key + 1) % 65536),
      ⟨(st.next + 1) % 65536, sideRecord st.side key w⟩)

/-- `handle_wildcard_insert` (`insert.rs:290-337`).  `isLast` is the
`index == total_segments - 1` test.  Note the source performs no
`MAX_ROUTES` check here; `fetch_add` on the `u16` counter and the stored
`key + 1` wrap modulo 65536 (in a debug build `key + 1` panics at the
ceiling). -/
def handleWildcardInsert (w : Nat) (m : Method) (n : MNode) (st : TState)
    (isLast : Bool) : (Except ErrCode Nat) × MNode × TState :=
  if !isLast then (.error .invalidWildcard, n, st)
  else
    let mi := m.idx
    let cur := n.wroutesL.getD mi 0
    if cur ≠ 0 then
      let ek := cur - 1
      if sideGet st.side ek = some w then (.error .duplicatedPath, n, st)
      else (.ok ek, n, st)
    else
      let key := st.next
      (.ok key, n.setWRoute mi ((key + 1) % 65536),
        ⟨(st.next + 1) % 65536, sideRecord st.side key w⟩)

/-- The descent loop of `insert_parsed` (`insert.rs:70-129`) plus the
final `assign_route_key`.  The source inserts a fresh child into the
node and then keeps mutating it through a reference; here the child is
rebuilt and written back, which yields the same final node. -/
def insertSegs (w : Nat) (m : Method) :
    List SegPattern → MNode → TState → (Except ErrCode Nat) × MNode × TState
  | [], n, st => assignRouteKey w m n st
  | pat :: rest, n, st =>
    if pat = wildPat then handleWildcardInsert w m n st rest.isEmpty
    else
      match pat.parts with
      | [SegPart.lit l] =>
        let c := (aFind n.statics l).getD emptyNode
        let (r, c2, st2) := insertSegs w m rest c st
        (r, n.withStatics (aSet n.statics l c2), st2)
      | _ =>
        if n.pats.any (fun pr => !patternCompatiblePolicy pr.1 pat) then
          (.error .paramNameConflicted, n, st)
        else
          match idxOfPat n.pats pat with
          | some j =>
            let c := (n.pats.getD j (wildPat, emptyNode)).2
            let (r, c2, st2) := insertSegs w m rest c st
            (r, n.withPats (n.pats.set j (pat, c2)), st2)
          | none =>
            let pos := (n.pmeta.findIdx? (fun sc => sc < patternScore pat)).getD n.pats.length
            let (r, c2, st2) := insertSegs w m rest emptyNode st
            (r, n.withPats (n.pats.insertIdx pos (pat, c2)), st2)

/-- `assign_route_key_preassigned` (`insert.rs:430-456`). -/
def assignRouteKeyPre (w : Nat) (m : Method) (key : Nat) (n : MNode)
    (side : List (Option Nat)) : (Except ErrCode Nat) × MNode × List (Option Nat) :=
  let mi := m.idx
  let cur := n.routesL.getD mi 0
  if cur ≠ 0 then
    let ek := cur - 1
    if sideGet side ek = some w then (.error .duplicatedPath, n, side)
    else (.ok ek, n, side)
  else (.ok key, n.setRoute mi ((key + 1) % 65536), sideRecord side key w)

/-- `handle_wildcard_insert_preassigned` (`insert.rs:339-382`). -/
def handleWildcardInsertPre (w : Nat) (m : Method) (key : Nat) (n : MNode)
    (side : List (Option Nat)) (isLast : Bool) :
    (Except ErrCode Nat) × MNode × List (Option Nat) :=
  if !isLast then (.error .invalidWildcard, n, side)
  else
    let mi := m.idx
    let cur := n.wroutesL.getD mi 0
    if cur ≠ 0 then
      let ek := cur - 1
      if sideGet side ek = some w then (.error .duplicatedPath, n, side)
      else (.ok ek, n, side)
    else (.ok key, n.setWRoute mi ((key + 1) % 65536), sideRecord side key w)

/-- The descent loop of `insert_parsed_preassigned` (`insert.rs:132-211`). -/
def insertSegsPre (w : Nat) (m : Method) (key : Nat) :
    List SegPattern → MNode → List (Option Nat) →
    (Except ErrCode Nat) × MNode × List (Option Nat)
  | [], n, side => assignRouteKeyPre w m key n side
  | pat :: rest, n, side =>
    if pat = wildPat then handleWildcardInsertPre w m key n side rest.isEmpty
    else
      match pat.parts with
      | [SegPart.lit l] =>
        let c := (aFind n.statics l).getD emptyNode
        let (r, c2, side2) := insertSegsPre w m key rest c side
        (r, n.withStatics (aSet n.statics l c2), side2)
      | _ =>
        if n.pats.any (fun pr => !patternCompatiblePolicy pr.1 pat) then
          (.error .paramNameConflicted, n, side)
        else
          match idxOfPat n.pats pat with
          | some j =>
            let c := (n.pats.getD j (wildPat, emptyNode)).2
            let (r, c2, side2) := insertSegsPre w m key rest c side
            (r, n.withPats (n.pats.set j (pat, c2)), side2)
          | none =>
            let pos := (n.pmeta.findIdx? (fun sc => sc < patternScore pat)).getD n.pats.length
            let (r, c2, side2) := insertSegsPre w m key rest emptyNode side
            (r, n.withPats (n.pats.insertIdx pos (pat, c2)), side2)

/-! ## Path preparation (`insert.rs:485-570`) -/

/-- Split a byte list on `/` (the `str::split('/')` used at
`insert.rs:505`). -/
def splitSlash (l : Bytes) : List Bytes :=
  match l with
  | [] => [[]]
  | b :: r =>
    let ps := splitSlash r
    if b = 47 then [] :: ps
    else
      match ps with
      | [] => [[b]]
      | h :: t => (b :: h) :: t

/-- The per-segment duplicate-parameter check (`insert.rs:550-565`):
walk the parts, failing on a name already seen and accumulating new
names. -/
def checkParams : List SegPart → List Bytes → Except ErrCode (List Bytes)
  | [], seen => .ok seen
  | .lit _ :: rest, seen => checkParams rest seen
  | .param nm :: rest, seen =>
    if seen.contains nm then .error .duplicateParamName
    else checkParams rest (seen ++ [nm])

/-- `min_len` of a parsed segment (`insert.rs:523-529`): the `u16` sum of
literal lengths, wrapping. -/
def minLenOf (p : SegPattern) : Nat :=
  p.parts.foldl (fun acc pp =>
    match pp with
    | .lit l => (acc + l.length % 65536) % 65536
    | _ => acc) 0

/-- `last_lit_len` of a parsed segment (`insert.rs:530-532`). -/
def lastLitOf (p : SegPattern) : Nat :=
  (p.parts.reverse.findSome? fun pp =>
    match pp with
    | .lit l => some (l.length % 65536)
    | _ => none).getD 0

/-- The segment loop of `prepare_path_segments_standalone`
(`insert.rs:517-568`). -/
def parseSegsLoop : List Bytes → List Bytes → Except ErrCode (List SegPattern)
  | [], _ => .ok []
  | t :: rest, seen =>
    match parseSegment t with
    | .error e => .error e
    | .ok pat =>
      if !(validSegLen (minLenOf pat) && validSegLen (lastLitOf pat)) then
        .error .patternTooLong
      else
        match checkParams pat.parts seen with
        | .error e => .error e
        | .ok seen2 =>
          match parseSegsLoop rest seen2 with
          | .error e => .error e
          | .ok pats => .ok (pat :: pats)

/-- `prepare_path_segments_standalone` (`insert.rs:485-570`). -/
def preparePathSegments (p : Bytes) : Except ErrCode (List SegPattern) :=
  match normalizeDefault p with
  | .error e => .error e
  | .ok norm =>
    if norm = [47] then .ok []
    else
      let texts := (splitSlash norm).filter (· ≠ [])
      if texts = [] then .error .invalidPath
      else parseSegsLoop texts []

/-! ## Tree, finalize, compression (`src/radix_tree.rs`, `builder.rs`,
`compression.rs`, `static_map.rs`) -/

/-- `RouterOptions` (`lib.rs:136-151`).  `enable_root_level_pruning`
feeds bitmaps that `RouterReadOnly::find` never reads and is omitted. -/
structure RouterOptions where
  staticMap : Bool
  autoOpt : Bool
deriving DecidableEq, Repr

def defaultRouterOptions : RouterOptions := ⟨false, true⟩

/-- Per-method full-path maps (`static_route_full_mapping`), seven
association lists. -/
abbrev StaticMaps := List (List (Bytes × Nat))

def emptyMaps : StaticMaps := List.replicate 7 []

/-- `RadixTree` (`radix_tree.rs:43-60`) restricted to observable fields. -/
structure MTree where
  root : MNode
  sealed : Bool
  next : Nat
  side : List (Option Nat)
  opts : RouterOptions
  staticFlagP : Bool
  maps : StaticMaps
deriving Repr

def freshTree (o : RouterOptions) : MTree :=
  { root := emptyNode, sealed := false, next := 0, side := [], opts := o
    staticFlagP := o.staticMap, maps := emptyMaps }

/-- `RadixTree::insert` (`insert.rs:17-49`): sealed check, the raw
`path == "/"` root special case, then parse and descend
(`insert_parsed` rechecks the same sealed flag). -/
def insertTree (t : MTree) (w : Nat) (m : Method) (p : Bytes) :
    (Except ErrCode Nat) × MTree :=
  if t.sealed then (.error .alreadySealed, t)
  else if p = [47] then
    let (r, n2, st2) := assignRouteKey w m t.root ⟨t.next, t.side⟩
    (r, { t with root := n2, next := st2.next, side := st2.side })
  else
    match preparePathSegments p with
    | .error e => (.error e, t)
    | .ok segs =>
      let (r, n2, st2) := insertSegs w m segs t.root ⟨t.next, t.side⟩
      (r, { t with root := n2, next := st2.next, side := st2.side })

/-- `insert_parsed` at the tree level (`insert.rs:51-130`), for claims
stated over already-parsed segments. -/
def insertParsedTree (t : MTree) (w : Nat) (m : Method) (segs : List SegPattern) :
    (Except ErrCode Nat) × MTree :=
  if t.sealed then (.error .alreadySealed, t)
  else
    let (r, n2, st2) := insertSegs w m segs t.root ⟨t.next, t.side⟩
    (r, { t with root := n2, next := st2.next, side := st2.side })

def allZeroL (l : List Nat) : Bool := l.all (· = 0)

theorem sizeOf_snd_lt_of_mem {α : Type} [SizeOf α] {l : List (α × MNode)} {x : α × MNode}
    (hm : x ∈ l) : sizeOf x.2 < sizeOf l := by
  have h1 : sizeOf x < sizeOf l := List.sizeOf_lt_of_mem hm
  obtain ⟨a, b⟩ := x
  simp at h1 ⊢
  omega

theorem MNode.sizeOf_statics (n : MNode) : sizeOf n.statics < sizeOf n := by
  cases n; simp [MNode.statics]; omega

theorem MNode.sizeOf_pats (n : MNode) : sizeOf n.pats < sizeOf n := by
  cases n; simp [MNode.pats]; omega

/-- The chain-absorbing loop of `compress_node`
(`compression.rs:47-70`): while the child has no patterns, no terminal
and exactly one static child, append `"/" + key` to the edge and move
down. -/
def absorb (e : Bytes) (c : MNode) : Bytes × MNode :=
  if c.pats.isEmpty && allZeroL c.routesL && allZeroL c.wroutesL then
    match h : c.statics with
    | [(k2, c2)] => absorb (e ++ 47 :: k2) c2
    | _ => (e, c)
  else (e, c)
termination_by sizeOf c
decreasing_by
  have hm : (k2, c2) ∈ c.statics := by rw [h]; exact List.mem_singleton_self _
  have h1 := sizeOf_snd_lt_of_mem hm
  have h2 := MNode.sizeOf_statics c
  simp at h1
  omega

/-- `compress_node` (`compression.rs:11-72`): compress the first pattern
child and every static child, then fuse this node when it has no edge
yet, no patterns, no terminals and exactly one static child. -/
def compressNode (n : MNode) : MNode :=
  match n with
  | .mk statics pats pmeta routes wroutes fe fc =>
    let pats2 : List (SegPattern × MNode) :=
      match pats with
      | [] => []
      | (p0, c0) :: restP => (p0, compressNode c0) :: restP
    let statics2 := statics.attach.map (fun x => (x.1.1, compressNode x.1.2))
    if fe ≠ none then .mk statics2 pats2 pmeta routes wroutes fe fc
    else if pats2.isEmpty && allZeroL routes && allZeroL wroutes
        && decide (statics2.length ≤ 1) then
      match statics2 with
      | [(k, c)] =>
        let ec := absorb k c
        .mk [] pats2 pmeta routes wroutes (some ec.1) (some ec.2)
      | _ => .mk statics2 pats2 pmeta routes wroutes fe fc
    else .mk statics2 pats2 pmeta routes wroutes fe fc
termination_by sizeOf n
decreasing_by
  · simp; omega
  · have h1 := sizeOf_snd_lt_of_mem x.2
    obtain ⟨⟨a, b⟩, hx⟩ := x
    simp at h1 ⊢
    omega

/-- `count_static` (`builder.rs:129-137`): number of non-zero `routes`
entries over the whole tree. -/
def countRoutesNode (n : MNode) : Nat :=
  match n with
  | .mk statics pats _ routes _ _ fc =>
    (routes.filter (· ≠ 0)).length
    + (statics.attach.map (fun x => countRoutesNode x.1.2)).sum
    + (pats.attach.map (fun x => countRoutesNode x.1.2)).sum
    + (match fc with
       | some c => countRoutesNode c
       | none => 0)
termination_by sizeOf n
decreasing_by
  · have h1 := sizeOf_snd_lt_of_mem x.2
    obtain ⟨⟨a, b⟩, hx⟩ := x
    simp at h1 ⊢
    omega
  · have h1 := sizeOf_snd_lt_of_mem x.2
    obtain ⟨⟨a, b⟩, hx⟩ := x
    simp at h1 ⊢
    omega
  · simp; omega

def mapInsert (maps : StaticMaps) (mi : Nat) (k : Bytes) (v : Nat) : StaticMaps :=
  maps.set mi (aSet (maps.getD mi []) k v)

/-- `collect_static` (`static_map.rs:4-47`).  Note it stores the raw
node value `rk`, which is the `+1`-encoded key. -/
def collectStatic (n : MNode) (buf : Bytes) (maps : StaticMaps) : StaticMaps :=
  match n with
  | .mk statics _ _ routes _ fe fc =>
    let buf1 : Bytes :=
      match fe with
      | some e => (if buf = [] then [47] else buf) ++ e
      | none => buf
    let maps1 := (List.range 7).foldl (fun acc mi =>
      if routes.getD mi 0 ≠ 0 then
        mapInsert acc mi (if buf1 = [] then [47] else buf1) (routes.getD mi 0)
      else acc) maps
    let maps2 := statics.attach.foldl (fun acc x =>
      collectStatic x.1.2 (buf1 ++ 47 :: x.1.1) acc) maps1
    match fc with
    | some c => collectStatic c buf1 maps2
    | none => maps2
termination_by sizeOf n
decreasing_by
  · have h1 := sizeOf_snd_lt_of_mem x.2
    obtain ⟨⟨a, b⟩, hx⟩ := x
    simp at h1 ⊢
    omega
  · simp; omega

/-- `finalize` (`builder.rs:11-117`) restricted to its observable
effects: the sealed short-circuit, the automatic static-full-mapping
decision (`builder.rs:51-57`), chain compression, the static full map
(built on the compressed tree), and clearing the worker side table.
Root-pruning bitmaps, index mirrors, method masks, pattern-meta
rebuilds and memory shrinking have no effect on `RouterReadOnly`. -/
def staticMapFlag (t : MTree) : Bool :=
  t.staticFlagP || (t.opts.autoOpt && decide (50 ≤ countRoutesNode t.root))

def finalizeTree (t : MTree) : MTree :=
  if t.sealed then t
  else
    { t with
      root := compressNode t.root
      sealed := true
      staticFlagP := staticMapFlag t
      maps := if staticMapFlag t then collectStatic (compressNode t.root) [] emptyMaps
              else emptyMaps
      side := [] }

/-! ## Read-only snapshot (`src/readonly.rs`) -/

/-- `ReadOnlyNode` (`readonly.rs:120-127`). -/
inductive RONode where
  | mk (fusedE : Option Bytes)
       (routes : List Nat)
       (wroutes : List Nat)
       (statics : List (Bytes × RONode))
       (pats : List (SegPattern × RONode))
deriving Repr

def RONode.fusedE : RONode → Option Bytes
  | .mk fe _ _ _ _ => fe

def RONode.routesL : RONode → List Nat
  | .mk _ r _ _ _ => r

def RONode.wroutesL : RONode → List Nat
  | .mk _ _ w _ _ => w

def RONode.statics : RONode → List (Bytes × RONode)
  | .mk _ _ _ st _ => st

def RONode.pats : RONode → List (SegPattern × RONode)
  | .mk _ _ _ _ p => p

theorem sizeOf_snd_lt_of_mem_ro {α : Type} [SizeOf α] {l : List (α × RONode)}
    {x : α × RONode} (hm : x ∈ l) : sizeOf x.2 < sizeOf l := by
  have h1 : sizeOf x < sizeOf l := List.sizeOf_lt_of_mem hm
  obtain ⟨a, b⟩ := x
  simp at h1 ⊢
  omega

/-- `ReadOnlyNode::from_node` (`readonly.rs:130-179`).  The three
static-children branches read the same key → child map through its
different mirrors (see the header note); a fused child is inserted
under the empty key.  Static keys are never empty, so the append cannot
shadow an existing binding. -/
def fromNode (n : MNode) : RONode :=
  match n with
  | .mk statics pats _ routes wroutes fe fc =>
    let sc := statics.attach.map (fun x => (x.1.1, fromNode x.1.2))
    let pc := pats.attach.map (fun x => (x.1.1, fromNode x.1.2))
    let sc2 := match fc with
      | some c => sc ++ [(([] : Bytes), fromNode c)]
      | none => sc
    .mk fe routes wroutes sc2 pc
termination_by sizeOf n
decreasing_by
  · have h1 := sizeOf_snd_lt_of_mem x.2
    obtain ⟨⟨a, b⟩, hx⟩ := x
    simp at h1 ⊢
    omega
  · have h1 := sizeOf_snd_lt_of_mem x.2
    obtain ⟨⟨a, b⟩, hx⟩ := x
    simp at h1 ⊢
    omega
  · simp; omega

/-- `RouterReadOnly` (`readonly.rs:18-22`). -/
structure Snapshot where
  maps : StaticMaps
  root : RONode
deriving Repr

/-- `RouterReadOnly::from_radix_tree` (`readonly.rs:48-60`). -/
def snapshotOf (t : MTree) : Snapshot := ⟨t.maps, fromNode t.root⟩

/-- `skip_slashes` (`readonly.rs:181-187`): skip a single leading `/`. -/
def skipSlashes (s : Bytes) (i : Nat) : Nat :=
  if i < s.length ∧ s.getD i 0 = 47 then i + 1 else i

/-- `handle_end` (`readonly.rs:189-204`). -/
def handleEnd (n : RONode) (m : Method) (ps : Caps) : Option (Nat × Caps) :=
  if n.routesL.getD m.idx 0 ≠ 0 then some (n.routesL.getD m.idx 0 - 1, ps)
  else if n.wroutesL.getD m.idx 0 ≠ 0 then some (n.wroutesL.getD m.idx 0 - 1, ps)
  else none

/-- First `some` in a list: the early-return pattern loop of
`find_from`. -/
def firstSome {α : Type} : List (Option α) → Option α
  | [] => none
  | some r :: _ => some r
  | none :: tl => firstSome tl

/-- The wildcard name `*`. -/
def starCap : Bytes := [42]

/-- The current segment: bytes from the cursor to the next `/` or the
end (`readonly.rs:232-237`). -/
def segAt (s : Bytes) (start : Nat) : Bytes :=
  (s.drop start).takeWhile (fun b => decide (b ≠ 47))

/-- The static-child attempt of `find_from` (`readonly.rs:239-243`). -/
def stepStatic (recur : RONode → Nat → Caps → Option (Nat × Caps))
    (n : RONode) (seg : Bytes) (nextS : Nat) (ps : Caps) : Option (Nat × Caps) :=
  match aFind n.statics seg with
  | some c => recur c nextS ps
  | none => none

/-- One dynamic-pattern attempt of `find_from` (`readonly.rs:246-259`):
match the segment, push the rebased captures that fit inside the path,
recurse; a failed recursion restores the capture list (the next attempt
starts again from `ps`). -/
def tryPat (recur : RONode → Nat → Caps → Option (Nat × Caps))
    (s : Bytes) (start nextS : Nat) (ps : Caps) (seg : Bytes)
    (pc : SegPattern × RONode) : Option (Nat × Caps) :=
  match matchSeg seg pc.1 with
  | some kvs =>
    recur pc.2 nextS (ps ++ kvs.filterMap (fun kv =>
      if start + kv.2.1 + kv.2.2 ≤ s.length then
        some (kv.1, start + kv.2.1, kv.2.2)
      else none))
  | none => none

/-- The pattern loop of `find_from`: first successful attempt in stored
order wins. -/
def stepPats (recur : RONode → Nat → Caps → Option (Nat × Caps))
    (n : RONode) (s : Bytes) (start nextS : Nat) (ps : Caps) (seg : Bytes) :
    Option (Nat × Caps) :=
  firstSome (n.pats.map (tryPat recur s start nextS ps seg))

/-- The wildcard tail of `find_from` (`readonly.rs:262-278`). -/
def wildCapStart (s : Bytes) (start : Nat) : Nat :=
  if start < s.length ∧ s.getD start 0 = 47 then start + 1 else start

def wildCaps (s : Bytes) (start : Nat) (ps : Caps) : Caps :=
  if wildCapStart s start ≤ s.length then
    if 0 < s.length - wildCapStart s start then
      ps ++ [(starCap, wildCapStart s start, s.length - wildCapStart s start)]
    else ps
  else ps

def stepWild (n : RONode) (m : Method) (s : Bytes) (start : Nat) (ps : Caps) :
    Option (Nat × Caps) :=
  if n.wroutesL.getD m.idx 0 ≠ 0 then
    some (n.wroutesL.getD m.idx 0 - 1, wildCaps s start ps)
  else none

/-- One step of `ReadOnlyNode::find_from` (`readonly.rs:206-279`) with
the recursive descent abstracted as `recur`: the fused-edge branch, the
end-of-path branch, then static child, dynamic patterns in stored
order, and finally the wildcard. -/
def findStep (recur : RONode → Nat → Caps → Option (Nat × Caps))
    (n : RONode) (m : Method) (s : Bytes) (i : Nat) (ps : Caps) :
    Option (Nat × Caps) :=
  match n.fusedE with
  | some e =>
    if leadsWith e (s.drop (skipSlashes s i)) then
      match aFind n.statics [] with
      | some c => recur c (skipSlashes s i + e.length) ps
      | none => none
    else none
  | none =>
    if s.length ≤ skipSlashes s i then handleEnd n m ps
    else
      match stepStatic recur n (segAt s (skipSlashes s i))
          (skipSlashes s i + (segAt s (skipSlashes s i)).length) ps with
      | some r => some r
      | none =>
        match stepPats recur n s (skipSlashes s i)
            (skipSlashes s i + (segAt s (skipSlashes s i)).length) ps
            (segAt s (skipSlashes s i)) with
        | some r => some r
        | none => stepWild n m s (skipSlashes s i) ps

/-- `ReadOnlyNode::find_from`, fuelled: every recursive call descends
into a child node, so any `fuel ≥ roSize node` reaches the same result
(`findFromF_fuel` below); the zero-fuel clause is unreachable from the
wrapper `findFrom`. -/
def findFromF : Nat → RONode → Method → Bytes → Nat → Caps → Option (Nat × Caps)
  | 0, _, _, _, _, _ => none
  | fuel + 1, n, m, s, i, ps =>
    findStep (fun c j ps2 => findFromF fuel c m s j ps2) n m s i ps

/-- Executable node size, used as the fuel for `findFromF`. -/
def roSize (n : RONode) : Nat :=
  match n with
  | .mk _ _ _ statics pats =>
    1 + (statics.attach.map (fun x => roSize x.1.2)).sum
      + (pats.attach.map (fun x => roSize x.1.2)).sum
termination_by sizeOf n
decreasing_by
  · have h1 := sizeOf_snd_lt_of_mem_ro x.2
    obtain ⟨⟨a, b⟩, hx⟩ := x
    simp at h1 ⊢
    omega
  · have h1 := sizeOf_snd_lt_of_mem_ro x.2
    obtain ⟨⟨a, b⟩, hx⟩ := x
    simp at h1 ⊢
    omega

/-- `find_from` with its always-sufficient fuel. -/
def findFrom (n : RONode) (m : Method) (s : Bytes) (i : Nat) (ps : Caps) :
    Option (Nat × Caps) :=
  findFromF (roSize n) n m s i ps

/-- `RouterReadOnly::find` (`readonly.rs:69-117`): normalize with the
default options (the facade carries no normalization options), consult
the per-method static full map, then descend from the root. -/
def findRO (ro : Snapshot) (m : Method) (p : Bytes) : Except ErrCode (Nat × Caps) :=
  match normalizeDefault p with
  | .error e => .error e
  | .ok norm =>
    match aFind (ro.maps.getD m.idx []) norm with
    | some k => .ok (k, [])
    | none =>
      match findFrom ro.root m norm 0 [] with
      | some r => .ok r
      | none => .error .pathNotFound

/-- Modelled from the spec (§4.1, §6): a `find` that honours the
configuration record's normalization flags.  The source's
`RouterReadOnly::find` hard-codes the default options
(`readonly.rs:72`), so this generalization exists only to state the
claims that configure `allow_duplicate_slash`. -/
def findROWithOptions (o : NormOptions) (ro : Snapshot) (m : Method) (p : Bytes) :
    Except ErrCode (Nat × Caps) :=
  match normalizePath p o with
  | .error e => .error e
  | .ok norm =>
    match aFind (ro.maps.getD m.idx []) norm with
    | some k => .ok (k, [])
    | none =>
      match findFrom ro.root m norm 0 [] with
      | some r => .ok r
      | none => .error .pathNotFound

/-! ## Bulk loader (`radix_tree.rs:85-256`) -/

/-- A preprocessed entry: original index, method, parsed segments, head
byte, path length, static guess (phases A of `insert_bulk`). -/
structure PreEntry where
  idx : Nat
  m : Method
  segs : List SegPattern
  head : Nat
  plen : Nat
  sguess : Bool
deriving DecidableEq, Repr

/-- Head byte after leading slashes (`radix_tree.rs:110-114`). -/
def headByteOf (p : Bytes) : Nat := ((p.dropWhile (· = 47)).headD 0)

/-- Whether a sublist occurs in a list (the `str::contains` used by the
static guess). -/
def hasSub (needle hay : Bytes) : Bool := (findSub needle hay).isSome

/-- The `is_static_guess` of `radix_tree.rs:115`. -/
def staticGuess (p : Bytes) : Bool :=
  !(p.contains 58) && !(hasSub [47, 42] p) && !(p.getLastD 0 = 42)

/-- Phase A of `insert_bulk`: normalize and parse every entry.  The
source farms this out to worker threads and keeps the first error
received; which failing entry provides the error value is racy, but
success versus failure is not, and the claims below only use the
success case.  This sequential model keeps the lowest-index error. -/
def parseEntries : List (Nat × Method × Bytes) → Except ErrCode (List PreEntry)
  | [] => .ok []
  | (i, m, p) :: rest =>
    match preparePathSegments p with
    | .error e => .error e
    | .ok segs =>
      match parseEntries rest with
      | .error e => .error e
      | .ok tl => .ok (⟨i, m, segs, headByteOf p, p.length, staticGuess p⟩ :: tl)

/-- The bucket-sort comparator of `radix_tree.rs:218-225`: head byte
ascending, then length ascending, then static entries first; `le` is
"not greater" of that comparator, fed to a stable merge sort. -/
def preLE (a b : PreEntry) : Bool :=
  if a.head ≠ b.head then a.head < b.head
  else if a.plen ≠ b.plen then a.plen < b.plen
  else a.sguess || !b.sguess

/-- The sequential commit loop of `insert_bulk` (`radix_tree.rs:248-254`):
keys were preassigned as `base + idx`; results land at the original
index. -/
def commitEntries (w base : Nat) :
    List PreEntry → MNode → List (Option Nat) → List Nat →
    (Except ErrCode (List Nat)) × MNode × List (Option Nat)
  | [], n, side, out => (.ok out, n, side)
  | pe :: rest, n, side, out =>
    let (r, n2, side2) := insertSegsPre w pe.m (base + pe.idx) pe.segs n side
    match r with
    | .ok key => commitEntries w base rest n2 side2 (out.set pe.idx key)
    | .error e => (.error e, n2, side2)

/-- `RadixTree::insert_bulk` (`radix_tree.rs:85-256`).  The parallel
preprocessing, interner warm-up and bucket sort only affect the order of
tree commits, never the key preassignment `base + idx`. -/
def insertBulk (t : MTree) (w : Nat) (entries : List (Method × Bytes)) :
    (Except ErrCode (List Nat)) × MTree :=
  if t.sealed then (.error .alreadySealed, t)
  else
    match parseEntries (entries.enum.map (fun ie => (ie.1, ie.2.1, ie.2.2))) with
    | .error e => (.error e, t)
    | .ok pre =>
      let pre2 := pre.mergeSort preLE
      let nn := pre2.length
      if maxRoutes ≤ t.next + nn then (.error .maxRoutesExceeded, t)
      else
        let base := t.next
        let (r, n2, side2) :=
          commitEntries w base pre2 t.root t.side (List.replicate nn 0)
        (r, { t with root := n2, next := (base + nn) % 65536, side := side2 })

/-! ## Router facade (`src/lib.rs`) -/

/-- `Router` (`lib.rs:23-32`): the mutable tree and the once-set
read-only snapshot. -/
structure Router where
  tree : MTree
  ro : Option Snapshot

/-- `Router::new` (`lib.rs:35-42`). -/
def routerNew (o : RouterOptions) : Router := ⟨freshTree o, none⟩

/-- `Router::add` (`lib.rs:44-61`). -/
def routerAdd (r : Router) (w : Nat) (m : Method) (p : Bytes) :
    (Except ErrCode Nat) × Router :=
  match r.ro with
  | some _ => (.error .alreadySealed, r)
  | none =>
    let (res, t2) := insertTree r.tree w m p
    (res, { r with tree := t2 })

/-- `Router::add_bulk` (`lib.rs:63-86`). -/
def routerAddBulk (r : Router) (w : Nat) (entries : List (Method × Bytes)) :
    (Except ErrCode (List Nat)) × Router :=
  match r.ro with
  | some _ => (.error .alreadySealed, r)
  | none =>
    let (res, t2) := insertBulk r.tree w entries
    (res, { r with tree := t2 })

/-- `Router::seal` (`lib.rs:88-99`): finalize, build the snapshot,
replace the tree with a fresh default one, and set the `OnceLock` (the
set is a no-op when a snapshot is already present). -/
def routerSeal (r : Router) : Router :=
  let t1 := finalizeTree r.tree
  let s := snapshotOf t1
  { tree := freshTree defaultRouterOptions
    ro := match r.ro with
          | some s0 => some s0
          | none => some s }

/-- `Router::find` (`lib.rs:101-115`). -/
def routerFind (r : Router) (m : Method) (p : Bytes) : Except ErrCode (Nat × Caps) :=
  match r.ro with
  | some ro => findRO ro m p
  | none => .error .notSealed

/-! ## Basic lemmas about the embedding -/

theorem aFind_mem {α : Type} {l : List (Bytes × α)} {k : Bytes} {c : α}
    (h : aFind l k = some c) : (k, c) ∈ l := by
  induction l with
  | nil => simp [aFind] at h
  | cons hd tl ih =>
    obtain ⟨k1, c1⟩ := hd
    rw [aFind] at h
    split at h
    · rename_i heq
      simp_all
    · exact List.mem_cons_of_mem _ (ih h)

theorem roSize_pos (n : RONode) : 1 ≤ roSize n := by
  cases n with
  | mk fe r w st p =>
    rw [roSize]
    omega

theorem roSize_lt_of_mem_statics {n : RONode} {k : Bytes} {c : RONode}
    (hm : (k, c) ∈ n.statics) : roSize c < roSize n := by
  cases n with
  | mk fe r w st p =>
    simp only [RONode.statics] at hm
    rw [roSize]
    have h1 : roSize c ∈ st.attach.map (fun x => roSize x.1.2) :=
      List.mem_map.mpr ⟨⟨(k, c), hm⟩, List.mem_attach _ _, rfl⟩
    have h2 := List.single_le_sum (l := st.attach.map (fun x => roSize x.1.2))
      (fun x _ => Nat.zero_le x) _ h1
    omega

theorem roSize_lt_of_mem_pats {n : RONode} {q : SegPattern} {c : RONode}
    (hm : (q, c) ∈ n.pats) : roSize c < roSize n := by
  cases n with
  | mk fe r w st p =>
    simp only [RONode.pats] at hm
    rw [roSize]
    have h1 : roSize c ∈ p.attach.map (fun x => roSize x.1.2) :=
      List.mem_map.mpr ⟨⟨(q, c), hm⟩, List.mem_attach _ _, rfl⟩
    have h2 := List.single_le_sum (l := p.attach.map (fun x => roSize x.1.2))
      (fun x _ => Nat.zero_le x) _ h1
    omega

theorem stepStatic_congr {r1 r2 : RONode → Nat → Caps → Option (Nat × Caps)}
    {n : RONode} {seg : Bytes} {nextS : Nat} {ps : Caps}
    (h : ∀ k c, (k, c) ∈ n.statics → ∀ j ps2, r1 c j ps2 = r2 c j ps2) :
    stepStatic r1 n seg nextS ps = stepStatic r2 n seg nextS ps := by
  unfold stepStatic
  cases haf : aFind n.statics seg with
  | some c => exact h _ c (aFind_mem haf) _ _
  | none => rfl

theorem stepPats_congr {r1 r2 : RONode → Nat → Caps → Option (Nat × Caps)}
    {n : RONode} {s : Bytes} {start nextS : Nat} {ps : Caps} {seg : Bytes}
    (h : ∀ q c, (q, c) ∈ n.pats → ∀ j ps2, r1 c j ps2 = r2 c j ps2) :
    stepPats r1 n s start nextS ps seg = stepPats r2 n s start nextS ps seg := by
  unfold stepPats
  congr 1
  apply List.map_congr_left
  intro pc hm
  unfold tryPat
  cases matchSeg seg pc.1 with
  | some kvs => exact h pc.1 pc.2 hm _ _
  | none => rfl

/-- `findStep` only looks at `recur` on children of `n`. -/
theorem findStep_congr {r1 r2 : RONode → Nat → Caps → Option (Nat × Caps)}
    {n : RONode} {m : Method} {s : Bytes} {i : Nat} {ps : Caps}
    (h : ∀ k c, (k, c) ∈ n.statics → ∀ j ps2, r1 c j ps2 = r2 c j ps2)
    (hp : ∀ q c, (q, c) ∈ n.pats → ∀ j ps2, r1 c j ps2 = r2 c j ps2) :
    findStep r1 n m s i ps = findStep r2 n m s i ps := by
  unfold findStep
  cases hfe : n.fusedE with
  | some e =>
    simp only
    split
    · cases haf : aFind n.statics [] with
      | some c => exact h _ c (aFind_mem haf) _ _
      | none => rfl
    · rfl
  | none =>
    simp only
    split
    · rfl
    · rw [stepStatic_congr h, stepPats_congr hp]

theorem findFromF_fuel {f1 f2 : Nat} (n : RONode) (m : Method) (s : Bytes) (i : Nat)
    (ps : Caps) (h1 : roSize n ≤ f1) (h2 : roSize n ≤ f2) :
    findFromF f1 n m s i ps = findFromF f2 n m s i ps := by
  induction f1 generalizing f2 n i ps with
  | zero => have := roSize_pos n; omega
  | succ f1 ih =>
    cases f2 with
    | zero => have := roSize_pos n; omega
    | succ f2 =>
      rw [findFromF, findFromF]
      apply findStep_congr
      · intro k c hm j ps2
        have hc := roSize_lt_of_mem_statics hm
        exact ih c j ps2 (by omega) (by omega)
      · intro q c hm j ps2
        have hc := roSize_lt_of_mem_pats hm
        exact ih c j ps2 (by omega) (by omega)

/-- The recursion equation of `find_from` in terms of the wrapper. -/
theorem findFrom_eq (n : RONode) (m : Method) (s : Bytes) (i : Nat) (ps : Caps) :
    findFrom n m s i ps = findStep (fun c j ps2 => findFrom c m s j ps2) n m s i ps := by
  rw [findFrom]
  have hpos := roSize_pos n
  obtain ⟨f, hf⟩ : ∃ f, roSize n = f + 1 := ⟨roSize n - 1, by omega⟩
  rw [hf, findFromF]
  apply findStep_congr
  · intro k c hm j ps2
    have hc := roSize_lt_of_mem_statics hm
    exact findFromF_fuel c m s j ps2 (by omega) (by omega)
  · intro q c hm j ps2
    have hc := roSize_lt_of_mem_pats hm
    exact findFromF_fuel c m s j ps2 (by omega) (by omega)

/-! ## Capture-shape lemmas (claims C10, C6) -/

theorem firstSome_mem {α : Type} {l : List (Option α)} {r : α}
    (h : firstSome l = some r) : some r ∈ l := by
  induction l with
  | nil => simp [firstSome] at h
  | cons hd tl ih =>
    cases hd with
    | some x => rw [firstSome] at h; simp_all
    | none => rw [firstSome] at h; exact List.mem_cons_of_mem _ (ih h)

/-- Every capture produced by `match_segment` has a positive length:
an empty parameter span is rejected (`pattern.rs:167-169`). -/
theorem matchParts_pos {seg : Bytes} {parts : List SegPart} {i : Nat} {out : Caps}
    (h : matchParts seg parts i = some out) : ∀ c ∈ out, 0 < c.2.2 := by
  induction parts generalizing i out with
  | nil =>
    rw [matchParts] at h
    split at h <;> simp_all
  | cons hd tl ih =>
    cases hd with
    | lit l =>
      rw [matchParts] at h
      split at h
      · simp at h
      · split at h
        · exact ih h
        · simp at h
    | param nm =>
      rw [matchParts] at h
      split at h
      · simp at h
      · rename_i e hpe
        split at h
        · simp at h
        · split at h
          · simp at h
          · split at h
            · simp at h
            · rename_i hlt hne _
              rw [Option.map_eq_some'] at h
              obtain ⟨out2, hmp, hout⟩ := h
              subst hout
              intro c hc
              rcases List.mem_cons.mp hc with hc1 | hc2
              · subst hc1; simp; omega
              · exact ih hmp c hc2

theorem matchSeg_pos {seg : Bytes} {p : SegPattern} {out : Caps}
    (h : matchSeg seg p = some out) : ∀ c ∈ out, 0 < c.2.2 :=
  matchParts_pos h

/-- `handle_end` never adds a capture and prefers `routes` over
`wildcard_routes`. -/
theorem handleEnd_shape {n : RONode} {m : Method} {ps : Caps} {k : Nat} {cps : Caps}
    (h : handleEnd n m ps = some (k, cps)) :
    cps = ps ∧
      (n.routesL.getD m.idx 0 ≠ 0 ∧ k = n.routesL.getD m.idx 0 - 1 ∨
       n.routesL.getD m.idx 0 = 0 ∧ n.wroutesL.getD m.idx 0 ≠ 0 ∧
         k = n.wroutesL.getD m.idx 0 - 1) := by
  unfold handleEnd at h
  split at h
  · rename_i h1
    simp only [Option.some_inj, Prod.mk.injEq] at h
    exact ⟨h.2.symm, Or.inl ⟨h1, h.1.symm⟩⟩
  · rename_i h1
    split at h
    · rename_i h2
      simp only [Option.some_inj, Prod.mk.injEq] at h
      simp only [ne_eq, Decidable.not_not] at h1
      exact ⟨h.2.symm, Or.inr ⟨h1, h2, h.1.symm⟩⟩
    · simp at h

/-- At end of path an unfused node answers through `handle_end`. -/
theorem findFrom_at_end {n : RONode} {m : Method} {s : Bytes} {i : Nat} {ps : Caps}
    (hfe : n.fusedE = none) (hend : s.length ≤ skipSlashes s i) :
    findFrom n m s i ps = handleEnd n m ps := by
  rw [findFrom_eq]
  unfold findStep
  rw [hfe]
  simp only [if_pos hend]

/-- `findStep` sends positive-length capture lists to positive-length
capture lists provided the recursion does. -/
theorem findStep_pos {recur : RONode → Nat → Caps → Option (Nat × Caps)}
    {n : RONode} {m : Method} {s : Bytes} {i : Nat} {ps : Caps} {k : Nat} {cps : Caps}
    (hrec : ∀ c j ps2 k2 cps2, (∀ x ∈ ps2, 0 < x.2.2) →
      recur c j ps2 = some (k2, cps2) → ∀ x ∈ cps2, 0 < x.2.2)
    (hps : ∀ x ∈ ps, 0 < x.2.2)
    (h : findStep recur n m s i ps = some (k, cps)) : ∀ x ∈ cps, 0 < x.2.2 := by
  unfold findStep at h
  cases hfe : n.fusedE with
  | some e =>
    rw [hfe] at h
    simp only at h
    split at h
    · cases haf : aFind n.statics [] with
      | some c => rw [haf] at h; exact hrec _ _ _ _ _ hps h
      | none => rw [haf] at h; simp at h
    · simp at h
  | none =>
    rw [hfe] at h
    simp only at h
    split at h
    · exact (handleEnd_shape h).1 ▸ hps
    · cases hst : stepStatic recur n (segAt s (skipSlashes s i))
        (skipSlashes s i + (segAt s (skipSlashes s i)).length) ps with
      | some r =>
        rw [hst] at h
        simp at h
        unfold stepStatic at hst
        cases haf : aFind n.statics (segAt s (skipSlashes s i)) with
        | some c =>
          rw [haf] at hst
          subst h
          exact hrec _ _ _ _ _ hps hst
        | none => rw [haf] at hst; simp at hst
      | none =>
        rw [hst] at h
        simp only at h
        cases hpp : stepPats recur n s (skipSlashes s i)
            (skipSlashes s i + (segAt s (skipSlashes s i)).length) ps
            (segAt s (skipSlashes s i)) with
        | some r =>
          rw [hpp] at h
          simp at h
          subst h
          unfold stepPats at hpp
          have hm := firstSome_mem hpp
          obtain ⟨pc, hpc, hr⟩ := List.mem_map.mp hm
          unfold tryPat at hr
          cases hms : matchSeg (segAt s (skipSlashes s i)) pc.1 with
          | some kvs =>
            rw [hms] at hr
            refine hrec _ _ _ _ _ ?_ hr
            intro x hx
            rcases List.mem_append.mp hx with hx1 | hx2
            · exact hps x hx1
            · obtain ⟨kv, hkv, hxeq⟩ := List.mem_filterMap.mp hx2
              split at hxeq
              · have := matchSeg_pos hms kv hkv
                simp at hxeq
                subst hxeq
                simpa using this
              · simp at hxeq
          | none => rw [hms] at hr; simp at hr
        | none =>
          rw [hpp] at h
          simp only at h
          unfold stepWild at h
          split at h
          · simp at h
            obtain ⟨hk, hcps⟩ := h
            subst hcps
            intro x hx
            unfold wildCaps at hx
            split at hx
            · split at hx
              · rcases List.mem_append.mp hx with hx1 | hx2
                · exact hps x hx1
                · simp only [List.mem_singleton] at hx2
                  subst hx2
                  assumption
              · exact hps x hx
            · exact hps x hx
          · simp at h

theorem findFromF_pos {fuel : Nat} {n : RONode} {m : Method} {s : Bytes} {i : Nat}
    {ps : Caps} {k : Nat} {cps : Caps}
    (hps : ∀ x ∈ ps, 0 < x.2.2)
    (h : findFromF fuel n m s i ps = some (k, cps)) : ∀ x ∈ cps, 0 < x.2.2 := by
  induction fuel generalizing n i ps k cps with
  | zero => simp [findFromF] at h
  | succ f ih =>
    rw [findFromF] at h
    exact findStep_pos (fun c j ps2 k2 cps2 hp2 hr => ih hp2 hr) hps h

theorem findFrom_pos {n : RONode} {m : Method} {s : Bytes} {i : Nat}
    {ps : Caps} {k : Nat} {cps : Caps}
    (hps : ∀ x ∈ ps, 0 < x.2.2)
    (h : findFrom n m s i ps = some (k, cps)) : ∀ x ∈ cps, 0 < x.2.2 :=
  findFromF_pos hps h

/-! ## Claim C10 -/

/-- C10.  Implicit wildcard edge case: (i) when the normalized path ends
at a node (one not holding a fused edge, as route-holding nodes never
do), `find_from` answers through `handle_end`; (ii) `handle_end` returns
the `routes` key, else the `wildcard_routes` key, with the capture list
exactly as accumulated — no `*` capture is appended, not even an
empty-span one; (iii) every capture in a result reached from an empty
capture list has strictly positive length, so a `*` capture is appended
only when the remaining suffix after the wildcard node is non-empty. -/
theorem C10_wildcard_end_no_capture :
    (∀ (n : RONode) (m : Method) (s : Bytes) (i : Nat) (ps : Caps),
      n.fusedE = none → s.length ≤ skipSlashes s i →
      findFrom n m s i ps = handleEnd n m ps) ∧
    (∀ (n : RONode) (m : Method) (ps : Caps) (k : Nat) (cps : Caps),
      handleEnd n m ps = some (k, cps) →
      cps = ps ∧
        (n.routesL.getD m.idx 0 ≠ 0 ∧ k = n.routesL.getD m.idx 0 - 1 ∨
         n.routesL.getD m.idx 0 = 0 ∧ n.wroutesL.getD m.idx 0 ≠ 0 ∧
           k = n.wroutesL.getD m.idx 0 - 1)) ∧
    (∀ (n : RONode) (m : Method) (s : Bytes) (k : Nat) (cps : Caps),
      findFrom n m s 0 [] = some (k, cps) → ∀ x ∈ cps, 0 < x.2.2) :=
  ⟨fun _ _ _ _ _ hfe hend => findFrom_at_end hfe hend,
   fun _ _ _ _ _ h => handleEnd_shape h,
   fun _ _ _ _ _ h => findFrom_pos (by simp) h⟩

/-- Witness for C10: the router of `GET /files/*` looked up at
`/files` — the path ends at the node holding the wildcard terminal and
the result is the wildcard key `0` with no capture at all. -/
theorem C10_wildcard_end_no_capture_witness :
    findFrom (RONode.mk none zeros7 [1, 0, 0, 0, 0, 0, 0] [] [])
        Method.get (bstr "/files") 6 [] = some (0, []) ∧
    (∀ x ∈ ([] : Caps), 0 < x.2.2) := by
  constructor
  · have h1 := C10_wildcard_end_no_capture.1
      (RONode.mk none zeros7 [1, 0, 0, 0, 0, 0, 0] [] [])
      Method.get (bstr "/files") 6 [] (by rfl) (by decide)
    rw [h1]
    decide
  · intro x hx
    simp at hx

/-! ## Claim C2 -/

/-- An engine that has consumed all 65535 route keys. -/
def treeAtCeiling : MTree := { freshTree defaultRouterOptions with next := 65535 }

/-- C2 evaluated at the ceiling.  The non-wildcard insert behaves as the
claim states: `assign_route_key` fails with MaxRoutesExceeded and
`next_route_key` is unchanged.  But an insert whose final segment is
`*` takes `handle_wildcard_insert`, which performs no `MAX_ROUTES`
check: it returns `Ok(65535)`, wraps `next_route_key` to 0, and stores
`wildcard_routes[GET] = (65535 + 1) mod 2^16 = 0` — the encoding for
"absent", silently losing the route (in a debug build the `key + 1`
computation panics instead).  This contradicts the claim, the spec
(§3: "exceeding it is a fatal insert error") and the behaviour of the
non-wildcard path. -/
theorem C2_max_routes_wildcard_overflow :
    (insertTree treeAtCeiling 0 Method.get (bstr "/a")).1 =
        Except.error ErrCode.maxRoutesExceeded ∧
    (insertTree treeAtCeiling 0 Method.get (bstr "/a")).2.next = 65535 ∧
    (insertTree treeAtCeiling 0 Method.get (bstr "/w/*")).1 = Except.ok 65535 ∧
    (insertTree treeAtCeiling 0 Method.get (bstr "/w/*")).2.next = 0 ∧
    (aFind (insertTree treeAtCeiling 0 Method.get (bstr "/w/*")).2.root.statics
        (bstr "w")).map (fun c => c.wroutesL.getD Method.get.idx 0) = some 0 := by
  refine ⟨?_, ?_, ?_, ?_, ?_⟩ <;> decide

/-! ## Claim C8 -/

/-- C8 amended.  When the descent ends at a node whose `routes[method]`
(resp. `wildcard_routes[method]`) is already non-zero, the insert
signals the duplicate-route error only when the worker side table names
the same worker as the original registrant; for a different worker it
returns the existing key with no error.  In both branches no new route
key is assigned: the node, `next_route_key` and the side table are
returned unchanged. -/
theorem C8_duplicate_route_worker_gated :
    (∀ (w : Nat) (m : Method) (n : MNode) (st : TState),
      n.routesL.getD m.idx 0 ≠ 0 →
      assignRouteKey w m n st =
        (if sideGet st.side (n.routesL.getD m.idx 0 - 1) = some w
         then (Except.error ErrCode.duplicatedPath, n, st)
         else (Except.ok (n.routesL.getD m.idx 0 - 1), n, st))) ∧
    (∀ (w : Nat) (m : Method) (n : MNode) (st : TState),
      n.wroutesL.getD m.idx 0 ≠ 0 →
      handleWildcardInsert w m n st true =
        (if sideGet st.side (n.wroutesL.getD m.idx 0 - 1) = some w
         then (Except.error ErrCode.duplicatedPath, n, st)
         else (Except.ok (n.wroutesL.getD m.idx 0 - 1), n, st))) := by
  constructor
  · intro w m n st hne
    unfold assignRouteKey
    rw [if_pos hne]
  · intro w m n st hne
    unfold handleWildcardInsert
    simp only [Bool.not_true, Bool.false_eq_true, if_false]
    rw [if_pos hne]

/-- A node holding route key 0 for GET, first registered by worker 1. -/
def dupNode : MNode := MNode.mk [] [] [] [1, 0, 0, 0, 0, 0, 0] zeros7 none none

/-- Witness for C8: at `dupNode`, a second registration by worker 2
returns the existing key 0 without an error and leaves the state
unchanged. -/
theorem C8_duplicate_route_worker_gated_witness :
    (assignRouteKey 2 Method.get dupNode ⟨1, [some 1]⟩).1 = Except.ok 0 ∧
    (assignRouteKey 2 Method.get dupNode ⟨1, [some 1]⟩).2.1.routesL =
      [1, 0, 0, 0, 0, 0, 0] ∧
    (assignRouteKey 2 Method.get dupNode ⟨1, [some 1]⟩).2.2.next = 1 := by
  rw [C8_duplicate_route_worker_gated.1 2 Method.get dupNode ⟨1, [some 1]⟩ (by decide)]
  refine ⟨?_, ?_, ?_⟩ <;> decide

/-- Counterexample to C8 as stated: insert `GET /a` as worker 1 (key 0),
then insert the same route as worker 2 — the second insert returns
`Ok(0)` rather than signalling the duplicate-route error (though no new
key is consumed: `next_route_key` stays 1). -/
theorem C8_counterexample_different_worker :
    (insertTree (freshTree defaultRouterOptions) 1 Method.get (bstr "/a")).1 =
        Except.ok 0 ∧
    (insertTree (insertTree (freshTree defaultRouterOptions) 1 Method.get
        (bstr "/a")).2 2 Method.get (bstr "/a")).1 = Except.ok 0 ∧
    (insertTree (insertTree (freshTree defaultRouterOptions) 1 Method.get
        (bstr "/a")).2 2 Method.get (bstr "/a")).2.next = 1 := by
  refine ⟨?_, ?_, ?_⟩ <;> decide

/-! ## Claim C3: normalizer rejection set -/

/-- Unfolding of the byte loop when the percent branch does not fire. -/
theorem normLoop_cons_plain {o : NormOptions} {b : Nat} {rest : Bytes} {st : NormSt}
    (hnd : ¬(o.decodePercent ∧ b = 37)) :
    normLoop o (b :: rest) st =
      match procByte b o st with
      | .ok st2 => normLoop o rest st2
      | .error e => .error e := by
  match rest with
  | [] =>
    rw [normLoop, if_neg hnd]
    intro hi lo r2 hc
    simp at hc
  | [x] =>
    rw [normLoop, if_neg hnd]
    intro hi lo r2 hc
    simp at hc
  | x :: y :: t => rw [normLoop, if_neg hnd]

/-- Under the default options the byte loop fails with
ControlOrWhitespace whenever the input holds a byte ≤ 0x20 (`/` is
0x2F, so it is never such a byte, and no other error source exists in
the default loop). -/
theorem normLoop_low_byte {p : Bytes} {st : NormSt} {b : Nat}
    (hb : b ∈ p) (hle : b ≤ 32) :
    normLoop defaultNormOptions p st = .error .controlOrWhitespace := by
  induction p generalizing st with
  | nil => simp at hb
  | cons hd tl ih =>
    have hdec : ¬(defaultNormOptions.decodePercent ∧ hd = 37) := by
      simp [defaultNormOptions]
    rw [normLoop_cons_plain hdec]
    rcases List.mem_cons.mp hb with hb1 | hb2
    · subst hb1
      have h47 : ¬(b = 47) := by omega
      unfold procByte
      rw [if_neg h47, if_pos hle]
    · cases hpb : procByte hd defaultNormOptions st with
      | ok st2 => exact ih hb2
      | error e =>
        unfold procByte at hpb
        split at hpb
        · split at hpb <;> simp at hpb
        · split at hpb
          · simp only [Except.error.injEq] at hpb
            rw [hpb]
          · simp at hpb

theorem normalizePath_low_byte {p : Bytes} {b : Nat} (hb : b ∈ p) (hle : b ≤ 32) :
    normalizePath p defaultNormOptions = .error .controlOrWhitespace := by
  unfold normalizePath
  have hne : ¬(p = []) := by
    intro hc
    subst hc
    simp at hb
  rw [if_neg hne, normLoop_low_byte hb hle]

/-- C3 amended.  Normalization under the default options rejects the
empty path and any path containing a byte ≤ 0x20 (always with
ControlOrWhitespace), and consequently `find` on the sealed router and
`insert` on an unsealed engine fail with that same path-validation
error (the failed insert leaves the tree unchanged).  Non-ASCII bytes
and bytes outside the RFC-3986 pchar set are not rejected (see the
counterexample). -/
theorem C3_normalizer_rejects_low_bytes :
    (normalizePath [] defaultNormOptions = .error .empty) ∧
    (∀ (p : Bytes) (b : Nat), b ∈ p → b ≤ 32 →
      normalizePath p defaultNormOptions = .error .controlOrWhitespace) ∧
    (∀ (ro : Snapshot) (m : Method) (p : Bytes) (b : Nat), b ∈ p → b ≤ 32 →
      findRO ro m p = .error .controlOrWhitespace) ∧
    (∀ (t : MTree) (w : Nat) (m : Method) (p : Bytes) (b : Nat), b ∈ p → b ≤ 32 →
      t.sealed = false →
      insertTree t w m p = (.error .controlOrWhitespace, t)) := by
  refine ⟨by decide, fun p b hb hle => normalizePath_low_byte hb hle, ?_, ?_⟩
  · intro ro m p b hb hle
    unfold findRO normalizeDefault
    rw [normalizePath_low_byte hb hle]
  · intro t w m p b hb hle hseal
    have hne : ¬(p = [47]) := by
      intro hc
      subst hc
      simp at hb
      omega
    unfold insertTree
    rw [hseal]
    simp only [Bool.false_eq_true, if_false, if_neg hne]
    unfold preparePathSegments normalizeDefault
    rw [normalizePath_low_byte hb hle]

/-- Witness for C3: `/a b` contains the space byte 0x20 and is rejected
everywhere. -/
theorem C3_normalizer_rejects_low_bytes_witness :
    normalizePath (bstr "/a b") defaultNormOptions =
        .error .controlOrWhitespace ∧
    insertTree (freshTree defaultRouterOptions) 0 Method.get (bstr "/a b") =
      (.error .controlOrWhitespace, freshTree defaultRouterOptions) := by
  constructor
  · exact C3_normalizer_rejects_low_bytes.2.1 (bstr "/a b") 32 (by decide) (by decide)
  · exact C3_normalizer_rejects_low_bytes.2.2.2 (freshTree defaultRouterOptions) 0
      Method.get (bstr "/a b") 32 (by decide) (by decide) (by decide)

/-- Counterexample to C3 as stated: the non-ASCII bytes `0xC3 0xA9`
(UTF-8 `é`) and the non-pchar ASCII byte `<` are accepted unchanged by
normalization, and a route whose path contains them is accepted by
`add` — the source enforces no ASCII-only and no pchar-set rule (its
own unit test `accepts_unicode_input_without_ascii_enforcement` pins
the non-ASCII acceptance). -/
theorem C3_counterexample_non_ascii_accepted :
    normalizePath [47, 195, 169] defaultNormOptions = .ok [47, 195, 169] ∧
    normalizePath (bstr "/<") defaultNormOptions = .ok (bstr "/<") ∧
    (insertTree (freshTree defaultRouterOptions) 0 Method.get [47, 195, 169]).1 =
      Except.ok 0 := by
  refine ⟨?_, ?_, ?_⟩ <;> decide

/-! ## Claim C9: the duplicate-slash scenario -/

def c9Router : Router :=
  (routerAdd (routerNew defaultRouterOptions) 0 Method.get (bstr "/")).2

def c9RootLit : MNode := MNode.mk [] [] [] [1, 0, 0, 0, 0, 0, 0] zeros7 none none

def c9ROLit : RONode := RONode.mk none [1, 0, 0, 0, 0, 0, 0] zeros7 [] []

def allowDupOptions : NormOptions :=
  { defaultNormOptions with allowDuplicateSlash := true }

theorem c9_snap_eq :
    snapshotOf (finalizeTree c9Router.tree) = ⟨emptyMaps, c9ROLit⟩ := by
  have hc : compressNode c9RootLit = c9RootLit := by
    rw [compressNode.eq_def]; simp [c9RootLit, allZeroL, zeros7]
  have hcnt : countRoutesNode c9RootLit = 1 := by
    rw [countRoutesNode.eq_def]; simp [c9RootLit, zeros7]
  have hfin : finalizeTree c9Router.tree =
      { root := c9RootLit, sealed := true, next := 1, side := [],
        opts := defaultRouterOptions, staticFlagP := false, maps := emptyMaps } := by
    unfold finalizeTree staticMapFlag
    rw [show c9Router.tree.sealed = false from rfl]
    simp only [Bool.false_eq_true, if_false]
    rw [show c9Router.tree.root = c9RootLit from rfl, hc, hcnt]
    rfl
  have hfn : fromNode c9RootLit = c9ROLit := by
    rw [fromNode.eq_def]; simp [c9RootLit, c9ROLit]
  rw [hfin]
  unfold snapshotOf
  simp [hfn]

theorem c9_find_root : findFrom c9ROLit Method.get [47] 0 [] = some (0, []) := by
  have hro : roSize c9ROLit = 1 := by rw [roSize.eq_def]; simp [c9ROLit]
  rw [findFrom, hro]
  decide

theorem c9_allowdup_lookup :
    findROWithOptions allowDupOptions
      (snapshotOf (finalizeTree c9Router.tree)) Method.get (bstr "//") =
      .ok (0, []) := by
  rw [c9_snap_eq]
  unfold findROWithOptions
  have hnorm : normalizePath (bstr "//") allowDupOptions = .ok [47] := by decide
  simp [hnorm, c9_find_root]
  decide

/-- Counterexample to C9 as stated: with `allow_duplicate_slash = true`
the lookup of `//` still returns `Ok((0, []))`, not RouteNotFound,
because the trailing-slash trimming pass (`normalize.rs:81-85`, active
whenever `strict_trailing_slash` is off) reduces `//` to `/` even when
duplicate slashes are preserved. -/
theorem C9_counterexample_allow_dup_still_matches :
    normalizePath (bstr "//") allowDupOptions = .ok [47] ∧
    findROWithOptions allowDupOptions
      (snapshotOf (finalizeTree c9Router.tree)) Method.get (bstr "//") =
      .ok (0, []) :=
  ⟨by decide, c9_allowdup_lookup⟩

/-- C9 amended.  After registering `GET /` and sealing, `find(GET, "//")`
returns `(0, [])` under the default options, as the claim's first half
states.  The claim's second half is wrong: even normalizing with
`allow_duplicate_slash = true`, `//` becomes `/` (the trailing-slash
trim still fires), so a find that honoured that option would also
return `(0, [])`; moreover the source's `RouterReadOnly::find` always
normalizes with the default options — the facade does not plumb
normalization options at all (`readonly.rs:72`, `lib.rs:136-151`). -/
theorem C9_duplicate_slash_matches_root :
    routerFind (routerSeal c9Router) Method.get (bstr "//") = .ok (0, []) ∧
    normalizePath (bstr "//") allowDupOptions = .ok [47] ∧
    findROWithOptions allowDupOptions
      (snapshotOf (finalizeTree c9Router.tree)) Method.get (bstr "//") =
      .ok (0, []) := by
  refine ⟨?_, by decide, c9_allowdup_lookup⟩
  show findRO (snapshotOf (finalizeTree c9Router.tree)) Method.get (bstr "//") = .ok (0, [])
  rw [c9_snap_eq]
  unfold findRO
  have hnorm : normalizeDefault (bstr "//") = .ok [47] := by decide
  simp [hnorm, c9_find_root]
  decide

/-! ## Chain terminals of the mutable tree -/

/-- Pattern-keyed child lookup, the reuse step of
`find_or_create_pattern_child` (`insert.rs:272-274`). -/
def aFindPat (l : List (SegPattern × MNode)) (p : SegPattern) : Option MNode :=
  match l with
  | [] => none
  | (q, c) :: rest => if q = p then some c else aFindPat rest p

/-- The child an insert descends into for one parsed segment. -/
def childFor (n : MNode) (p : SegPattern) : Option MNode :=
  match p.parts with
  | [SegPart.lit l] => aFind n.statics l
  | _ => aFindPat n.pats p

/-- The stored (`+1`-encoded) route key registered for a parsed-segment
chain and a method: `routes` of the node the chain descends to, or
`wildcard_routes` of the prefix node when the chain ends with `*`;
0 when the chain is absent. -/
def chainTerm (n : MNode) : List SegPattern → Method → Nat
  | [], m => n.routesL.getD m.idx 0
  | p :: rest, m =>
    if p = wildPat then
      (if rest = [] then n.wroutesL.getD m.idx 0 else 0)
    else
      match childFor n p with
      | some c => chainTerm c rest m
      | none => 0

theorem MNode.statics_withStatics (n : MNode) (st : List (Bytes × MNode)) :
    (n.withStatics st).statics = st := by cases n; rfl

theorem MNode.pats_withStatics (n : MNode) (st : List (Bytes × MNode)) :
    (n.withStatics st).pats = n.pats := by cases n; rfl

theorem MNode.routesL_withStatics (n : MNode) (st : List (Bytes × MNode)) :
    (n.withStatics st).routesL = n.routesL := by cases n; rfl

theorem MNode.wroutesL_withStatics (n : MNode) (st : List (Bytes × MNode)) :
    (n.withStatics st).wroutesL = n.wroutesL := by cases n; rfl

theorem MNode.statics_withPats (n : MNode) (p : List (SegPattern × MNode)) :
    (n.withPats p).statics = n.statics := by cases n; rfl

theorem MNode.pats_withPats (n : MNode) (p : List (SegPattern × MNode)) :
    (n.withPats p).pats = p := by cases n; rfl

theorem MNode.routesL_withPats (n : MNode) (p : List (SegPattern × MNode)) :
    (n.withPats p).routesL = n.routesL := by cases n; rfl

theorem MNode.wroutesL_withPats (n : MNode) (p : List (SegPattern × MNode)) :
    (n.withPats p).wroutesL = n.wroutesL := by cases n; rfl

theorem MNode.statics_setRoute (n : MNode) (mi v : Nat) :
    (n.setRoute mi v).statics = n.statics := by cases n; rfl

theorem MNode.pats_setRoute (n : MNode) (mi v : Nat) :
    (n.setRoute mi v).pats = n.pats := by cases n; rfl

theorem MNode.routesL_setRoute (n : MNode) (mi v : Nat) :
    (n.setRoute mi v).routesL = n.routesL.set mi v := by cases n; rfl

theorem MNode.wroutesL_setRoute (n : MNode) (mi v : Nat) :
    (n.setRoute mi v).wroutesL = n.wroutesL := by cases n; rfl

theorem MNode.statics_setWRoute (n : MNode) (mi v : Nat) :
    (n.setWRoute mi v).statics = n.statics := by cases n; rfl

theorem MNode.pats_setWRoute (n : MNode) (mi v : Nat) :
    (n.setWRoute mi v).pats = n.pats := by cases n; rfl

theorem MNode.routesL_setWRoute (n : MNode) (mi v : Nat) :
    (n.setWRoute mi v).routesL = n.routesL := by cases n; rfl

theorem MNode.wroutesL_setWRoute (n : MNode) (mi v : Nat) :
    (n.setWRoute mi v).wroutesL = n.wroutesL.set mi v := by cases n; rfl

theorem aFind_aSet_self {α : Type} (l : List (Bytes × α)) (k : Bytes) (v : α) :
    aFind (aSet l k v) k = some v := by
  induction l with
  | nil => simp [aSet, aFind]
  | cons hd tl ih =>
    obtain ⟨k1, c1⟩ := hd
    by_cases hk : k1 = k
    · subst hk
      simp [aSet, aFind]
    · rw [aSet]
      simp only [if_neg hk]
      rw [aFind, if_neg hk]
      exact ih

theorem aFind_aSet_ne {α : Type} (l : List (Bytes × α)) (k k2 : Bytes) (v : α)
    (hne : k2 ≠ k) : aFind (aSet l k v) k2 = aFind l k2 := by
  induction l with
  | nil =>
    rw [aSet, aFind, aFind, if_neg (fun hc : k = k2 => hne hc.symm), aFind]
  | cons hd tl ih =>
    obtain ⟨k1, c1⟩ := hd
    by_cases hk : k1 = k
    · subst hk
      have hs : aSet ((k1, c1) :: tl) k1 v = (k1, v) :: tl := by
        rw [aSet]; simp
      rw [hs, aFind, aFind]
      have h12 : ¬(k1 = k2) := fun hc => hne (hc ▸ rfl)
      rw [if_neg h12, if_neg h12]
    · rw [aSet]
      simp only [if_neg hk]
      rw [aFind, aFind]
      by_cases hk2 : k1 = k2
      · simp [hk2]
      · rw [if_neg hk2, if_neg hk2]
        exact ih

theorem getD_zero_of_all {l : List Nat} (h : ∀ x ∈ l, x = 0) (i : Nat) :
    l.getD i 0 = 0 := by
  induction l generalizing i with
  | nil => simp [List.getD]
  | cons hd tl ih =>
    cases i with
    | zero => simpa using h hd (by simp)
    | succ j =>
      rw [List.getD_cons_succ]
      exact ih (fun x hx => h x (by simp [hx])) j

theorem zeros7_getD (i : Nat) : zeros7.getD i 0 = 0 :=
  getD_zero_of_all (by decide) i

/-- Chains through an absent subtree have no terminal. -/
theorem chainTerm_empty (segs : List SegPattern) (m : Method) :
    chainTerm emptyNode segs m = 0 := by
  cases segs with
  | nil =>
    rw [chainTerm]
    show zeros7.getD m.idx 0 = 0
    exact zeros7_getD m.idx
  | cons p rest =>
    rw [chainTerm]
    split
    · split
      · show zeros7.getD m.idx 0 = 0
        exact zeros7_getD m.idx
      · rfl
    · have h1 : childFor emptyNode p = none := by
        unfold childFor
        split
        · simp [emptyNode, MNode.statics, aFind]
        · simp [emptyNode, MNode.pats, aFindPat]
      rw [h1]

theorem MNode.withPats_self (n : MNode) : n.withPats n.pats = n := by
  cases n; rfl

theorem idxOfPat_none_aFindPat (l : List (SegPattern × MNode)) (p : SegPattern)
    (h : idxOfPat l p = none) : aFindPat l p = none := by
  induction l with
  | nil => rfl
  | cons hd tl ih =>
    obtain ⟨q, c⟩ := hd
    rw [idxOfPat] at h
    rw [aFindPat]
    by_cases hq : q = p
    · rw [if_pos hq] at h
      exact absurd h (by simp)
    · rw [if_neg hq] at h
      rw [if_neg hq]
      exact ih (by simpa using h)

theorem idxOfPat_some_aFindPat (l : List (SegPattern × MNode)) (p : SegPattern) :
    ∀ j, idxOfPat l p = some j →
      aFindPat l p = some (l.getD j (wildPat, emptyNode)).2 := by
  induction l with
  | nil => intro j h; exact absurd h (by simp [idxOfPat])
  | cons hd tl ih =>
    intro j h
    obtain ⟨q, c⟩ := hd
    rw [idxOfPat] at h
    rw [aFindPat]
    by_cases hq : q = p
    · rw [if_pos hq] at h
      rw [if_pos hq]
      have hj : j = 0 := by simpa using h.symm
      subst hj
      rfl
    · rw [if_neg hq] at h
      rw [if_neg hq]
      obtain ⟨j2, hj2, hjs⟩ := Option.map_eq_some'.mp h
      subst hjs
      rw [ih j2 hj2]
      rfl

theorem aFindPat_set_self (l : List (SegPattern × MNode)) (p : SegPattern) (c2 : MNode) :
    ∀ j, idxOfPat l p = some j → aFindPat (l.set j (p, c2)) p = some c2 := by
  induction l with
  | nil => intro j h; exact absurd h (by simp [idxOfPat])
  | cons hd tl ih =>
    intro j h
    obtain ⟨q, c⟩ := hd
    rw [idxOfPat] at h
    by_cases hq : q = p
    · rw [if_pos hq] at h
      have hj : j = 0 := by simpa using h.symm
      subst hj
      rw [List.set_cons_zero, aFindPat, if_pos rfl]
    · rw [if_neg hq] at h
      obtain ⟨j2, hj2, hjs⟩ := Option.map_eq_some'.mp h
      subst hjs
      rw [List.set_cons_succ, aFindPat, if_neg hq]
      exact ih j2 hj2

theorem aFindPat_set_ne (l : List (SegPattern × MNode)) (p q2 : SegPattern) (c2 : MNode)
    (hne : q2 ≠ p) :
    ∀ j, idxOfPat l p = some j → aFindPat (l.set j (p, c2)) q2 = aFindPat l q2 := by
  induction l with
  | nil => intro j h; exact absurd h (by simp [idxOfPat])
  | cons hd tl ih =>
    intro j h
    obtain ⟨q, c⟩ := hd
    rw [idxOfPat] at h
    by_cases hq : q = p
    · rw [if_pos hq] at h
      have hj : j = 0 := by simpa using h.symm
      subst hj
      rw [List.set_cons_zero, aFindPat, aFindPat,
        if_neg (fun hc : p = q2 => hne hc.symm),
        if_neg (fun hc : q = q2 => hne (hc.symm.trans hq))]
    · rw [if_neg hq] at h
      obtain ⟨j2, hj2, hjs⟩ := Option.map_eq_some'.mp h
      subst hjs
      rw [List.set_cons_succ, aFindPat, aFindPat]
      by_cases hq2 : q = q2
      · rw [if_pos hq2, if_pos hq2]
      · rw [if_neg hq2, if_neg hq2]
        exact ih j2 hj2

theorem aFindPat_insertIdx_ne (p q2 : SegPattern) (c2 : MNode) (hne : q2 ≠ p) :
    ∀ (l : List (SegPattern × MNode)) (pos : Nat),
      aFindPat (l.insertIdx pos (p, c2)) q2 = aFindPat l q2 := by
  intro l
  induction l with
  | nil =>
    intro pos
    cases pos with
    | zero =>
      rw [List.insertIdx_zero, aFindPat, aFindPat,
        if_neg (fun hc : p = q2 => hne hc.symm), aFindPat]
    | succ k => rw [List.insertIdx_succ_nil]
  | cons hd tl ih =>
    intro pos
    obtain ⟨q, c⟩ := hd
    cases pos with
    | zero =>
      rw [List.insertIdx_zero, aFindPat, if_neg (fun hc : p = q2 => hne hc.symm)]
    | succ k =>
      rw [List.insertIdx_succ_cons, aFindPat, aFindPat]
      by_cases hq2 : q = q2
      · rw [if_pos hq2, if_pos hq2]
      · rw [if_neg hq2, if_neg hq2]
        exact ih k

theorem aFindPat_insertIdx_self (p : SegPattern) (c2 : MNode) :
    ∀ (l : List (SegPattern × MNode)) (pos : Nat), idxOfPat l p = none →
      aFindPat (l.insertIdx pos (p, c2)) p = some c2 ∨ l.insertIdx pos (p, c2) = l := by
  intro l
  induction l with
  | nil =>
    intro pos _
    cases pos with
    | zero => exact Or.inl (by rw [List.insertIdx_zero, aFindPat, if_pos rfl])
    | succ k => exact Or.inr (by rw [List.insertIdx_succ_nil])
  | cons hd tl ih =>
    intro pos h
    obtain ⟨q, c⟩ := hd
    rw [idxOfPat] at h
    by_cases hq : q = p
    · rw [if_pos hq] at h
      exact absurd h (by simp)
    · rw [if_neg hq] at h
      have htl : idxOfPat tl p = none := by simpa using h
      cases pos with
      | zero => exact Or.inl (by rw [List.insertIdx_zero, aFindPat, if_pos rfl])
      | succ k =>
        rw [List.insertIdx_succ_cons]
        rcases ih k htl with hl | hr
        · exact Or.inl (by rw [aFindPat, if_neg hq]; exact hl)
        · exact Or.inr (by rw [hr])

theorem childFor_eq_static (n : MNode) (p : SegPattern) (l : Bytes)
    (hp : p.parts = [SegPart.lit l]) : childFor n p = aFind n.statics l := by
  unfold childFor
  rw [hp]

theorem childFor_eq_pat (n : MNode) (p : SegPattern)
    (hp : ∀ l, p.parts ≠ [SegPart.lit l]) : childFor n p = aFindPat n.pats p := by
  unfold childFor
  split
  · rename_i l hl
    exact absurd hl (hp l)
  · rfl

theorem chainTerm_withStatics_aSet (n : MNode) (l : Bytes) (c2 : MNode)
    (hc : ∀ chain mm, chainTerm c2 chain mm =
      chainTerm ((aFind n.statics l).getD emptyNode) chain mm) :
    ∀ chain mm,
      chainTerm (n.withStatics (aSet n.statics l c2)) chain mm = chainTerm n chain mm := by
  intro chain mm
  cases chain with
  | nil => rw [chainTerm, chainTerm, MNode.routesL_withStatics]
  | cons p rest2 =>
    rw [chainTerm, chainTerm]
    by_cases hpw : p = wildPat
    · rw [if_pos hpw, if_pos hpw, MNode.wroutesL_withStatics]
    · rw [if_neg hpw, if_neg hpw]
      by_cases hps : ∃ l2, p.parts = [SegPart.lit l2]
      · obtain ⟨l2, hl2⟩ := hps
        rw [childFor_eq_static _ _ _ hl2, childFor_eq_static _ _ _ hl2,
          MNode.statics_withStatics]
        by_cases hll : l2 = l
        · subst hll
          rw [aFind_aSet_self]
          cases hfind : aFind n.statics l2 with
          | none => simpa [hfind, chainTerm_empty] using hc rest2 mm
          | some c0 => simpa [hfind] using hc rest2 mm
        · rw [aFind_aSet_ne _ _ _ _ hll]
      · have hnp : ∀ l2, p.parts ≠ [SegPart.lit l2] := fun l2 hc2 => hps ⟨l2, hc2⟩
        rw [childFor_eq_pat _ _ hnp, childFor_eq_pat _ _ hnp, MNode.pats_withStatics]

theorem chainTerm_withPats_set (n : MNode) (j : Nat) (p : SegPattern) (c2 : MNode)
    (hj : idxOfPat n.pats p = some j)
    (hc : ∀ chain mm, chainTerm c2 chain mm =
      chainTerm (n.pats.getD j (wildPat, emptyNode)).2 chain mm) :
    ∀ chain mm,
      chainTerm (n.withPats (n.pats.set j (p, c2))) chain mm = chainTerm n chain mm := by
  intro chain mm
  cases chain with
  | nil => rw [chainTerm, chainTerm, MNode.routesL_withPats]
  | cons p2 rest2 =>
    rw [chainTerm, chainTerm]
    by_cases hpw : p2 = wildPat
    · rw [if_pos hpw, if_pos hpw, MNode.wroutesL_withPats]
    · rw [if_neg hpw, if_neg hpw]
      by_cases hps : ∃ l2, p2.parts = [SegPart.lit l2]
      · obtain ⟨l2, hl2⟩ := hps
        rw [childFor_eq_static _ _ _ hl2, childFor_eq_static _ _ _ hl2,
          MNode.statics_withPats]
      · have hnp : ∀ l2, p2.parts ≠ [SegPart.lit l2] := fun l2 hc2 => hps ⟨l2, hc2⟩
        rw [childFor_eq_pat _ _ hnp, childFor_eq_pat _ _ hnp, MNode.pats_withPats]
        by_cases hpp : p2 = p
        · subst hpp
          rw [aFindPat_set_self _ _ _ _ hj, idxOfPat_some_aFindPat _ _ _ hj]
          exact hc rest2 mm
        · rw [aFindPat_set_ne _ _ _ _ hpp _ hj]

theorem chainTerm_withPats_insertIdx (n : MNode) (pos : Nat) (p : SegPattern) (c2 : MNode)
    (hnone : idxOfPat n.pats p = none)
    (hc : ∀ chain mm, chainTerm c2 chain mm = 0) :
    ∀ chain mm,
      chainTerm (n.withPats (n.pats.insertIdx pos (p, c2))) chain mm = chainTerm n chain mm := by
  rcases aFindPat_insertIdx_self p c2 n.pats pos hnone with hself | hsame
  case inr =>
    rw [hsame, MNode.withPats_self]
    exact fun _ _ => rfl
  intro chain mm
  cases chain with
  | nil => rw [chainTerm, chainTerm, MNode.routesL_withPats]
  | cons p2 rest2 =>
    rw [chainTerm, chainTerm]
    by_cases hpw : p2 = wildPat
    · rw [if_pos hpw, if_pos hpw, MNode.wroutesL_withPats]
    · rw [if_neg hpw, if_neg hpw]
      by_cases hps : ∃ l2, p2.parts = [SegPart.lit l2]
      · obtain ⟨l2, hl2⟩ := hps
        rw [childFor_eq_static _ _ _ hl2, childFor_eq_static _ _ _ hl2,
          MNode.statics_withPats]
      · have hnp : ∀ l2, p2.parts ≠ [SegPart.lit l2] := fun l2 hc2 => hps ⟨l2, hc2⟩
        rw [childFor_eq_pat _ _ hnp, childFor_eq_pat _ _ hnp, MNode.pats_withPats]
        by_cases hpp : p2 = p
        · subst hpp
          rw [hself, idxOfPat_none_aFindPat _ _ hnone]
          exact hc rest2 mm
        · rw [aFindPat_insertIdx_ne _ _ _ hpp]

theorem insertSegs_error_preserves (w : Nat) (m : Method) :
    ∀ (segs : List SegPattern) (n : MNode) (st : TState) (e : ErrCode)
      (n2 : MNode) (st2 : TState),
      insertSegs w m segs n st = (.error e, n2, st2) →
      st2 = st ∧ ∀ chain mm, chainTerm n2 chain mm = chainTerm n chain mm := by
  intro segs
  induction segs with
  | nil =>
    intro n st e n2 st2 h
    rw [insertSegs] at h
    simp only [assignRouteKey] at h
    split at h
    · split at h
      · simp only [Prod.mk.injEq] at h
        obtain ⟨h1, h2, h3⟩ := h
        subst h2; subst h3
        exact ⟨rfl, fun _ _ => rfl⟩
      · simp at h
    · split at h
      · simp only [Prod.mk.injEq] at h
        obtain ⟨h1, h2, h3⟩ := h
        subst h2; subst h3
        exact ⟨rfl, fun _ _ => rfl⟩
      · simp at h
  | cons pat rest ih =>
    intro n st e n2 st2 h
    simp only [insertSegs] at h
    by_cases hw : pat = wildPat
    · rw [if_pos hw] at h
      simp only [handleWildcardInsert] at h
      split at h
      · simp only [Prod.mk.injEq] at h
        obtain ⟨h1, h2, h3⟩ := h
        subst h2; subst h3
        exact ⟨rfl, fun _ _ => rfl⟩
      · split at h
        · split at h
          · simp only [Prod.mk.injEq] at h
            obtain ⟨h1, h2, h3⟩ := h
            subst h2; subst h3
            exact ⟨rfl, fun _ _ => rfl⟩
          · simp at h
        · simp at h
    · rw [if_neg hw] at h
      split at h
      · rename_i l hl
        rcases hrec : insertSegs w m rest ((aFind n.statics l).getD emptyNode) st
          with ⟨r, c2, st2r⟩
        rw [hrec] at h
        simp only [Prod.mk.injEq] at h
        obtain ⟨h1, h2, h3⟩ := h
        subst h1; subst h2; subst h3
        obtain ⟨hst, hchain⟩ := ih _ _ _ _ _ hrec
        exact ⟨hst, chainTerm_withStatics_aSet n l c2 hchain⟩
      · rename_i hnl
        split at h
        · simp only [Prod.mk.injEq] at h
          obtain ⟨h1, h2, h3⟩ := h
          subst h2; subst h3
          exact ⟨rfl, fun _ _ => rfl⟩
        · rename_i hcomp
          split at h
          · rename_i j hj
            rcases hrec : insertSegs w m rest (n.pats.getD j (wildPat, emptyNode)).2 st
              with ⟨r, c2, st2r⟩
            rw [hrec] at h
            simp only [Prod.mk.injEq] at h
            obtain ⟨h1, h2, h3⟩ := h
            subst h1; subst h2; subst h3
            obtain ⟨hst, hchain⟩ := ih _ _ _ _ _ hrec
            exact ⟨hst, chainTerm_withPats_set n j pat c2 hj hchain⟩
          · rename_i hj
            rcases hrec : insertSegs w m rest emptyNode st with ⟨r, c2, st2r⟩
            rw [hrec] at h
            simp only [Prod.mk.injEq] at h
            obtain ⟨h1, h2, h3⟩ := h
            subst h1; subst h2; subst h3
            obtain ⟨hst, hchain⟩ := ih _ _ _ _ _ hrec
            refine ⟨hst, chainTerm_withPats_insertIdx n _ pat c2 hj ?_⟩
            intro chain mm
            exact (hchain chain mm).trans (chainTerm_empty chain mm)

theorem insertSegs_wild_nonfinal (w : Nat) (m : Method) :
    ∀ (pre rest : List SegPattern) (n : MNode) (st : TState), rest ≠ [] →
      ∃ e n2 st2,
        insertSegs w m (pre ++ wildPat :: rest) n st = (.error e, n2, st2) ∧
          (e = ErrCode.invalidWildcard ∨ e = ErrCode.paramNameConflicted) := by
  intro pre
  induction pre with
  | nil =>
    intro rest n st hrest
    refine ⟨.invalidWildcard, n, st, ?_, Or.inl rfl⟩
    simp only [List.nil_append, insertSegs, if_pos rfl]
    rw [handleWildcardInsert]
    have hne : rest.isEmpty = false := by
      cases rest with
      | nil => exact absurd rfl hrest
      | cons a b => rfl
    rw [hne]
    rfl
  | cons q pre2 ih =>
    intro rest n st hrest
    rw [List.cons_append]
    by_cases hw : q = wildPat
    · refine ⟨.invalidWildcard, n, st, ?_, Or.inl rfl⟩
      simp only [insertSegs, if_pos hw]
      rw [handleWildcardInsert]
      have hne : (pre2 ++ wildPat :: rest).isEmpty = false := by
        cases pre2 with
        | nil => rfl
        | cons a b => rfl
      rw [hne]
      rfl
    · simp only [insertSegs, if_neg hw]
      split
      · rename_i l hl
        obtain ⟨e, n2, st2, hrec, hcls⟩ :=
          ih rest ((aFind n.statics l).getD emptyNode) st hrest
        refine ⟨e, n.withStatics (aSet n.statics l ((insertSegs w m (pre2 ++ wildPat :: rest)
          ((aFind n.statics l).getD emptyNode) st).2.1)), st2, ?_, hcls⟩
        rw [hrec]
      · rename_i hnl
        split
        · exact ⟨.paramNameConflicted, n, st, rfl, Or.inr rfl⟩
        · rename_i hcomp
          split
          · rename_i j hj
            obtain ⟨e, n2, st2, hrec, hcls⟩ :=
              ih rest (n.pats.getD j (wildPat, emptyNode)).2 st hrest
            refine ⟨e, n.withPats (n.pats.set j (q, (insertSegs w m (pre2 ++ wildPat :: rest)
              (n.pats.getD j (wildPat, emptyNode)).2 st).2.1)), st2, ?_, hcls⟩
            rw [hrec]
          · rename_i hj
            obtain ⟨e, n2, st2, hrec, hcls⟩ := ih rest emptyNode st hrest
            refine ⟨e, n.withPats (n.pats.insertIdx
              ((n.pmeta.findIdx? (fun sc => sc < patternScore q)).getD n.pats.length)
              (q, (insertSegs w m (pre2 ++ wildPat :: rest) emptyNode st).2.1)), st2, ?_, hcls⟩
            rw [hrec]

/-- **C4 counterexample.** The claim says a failed non-terminal-wildcard
insert leaves the tree unchanged ("no new nodes").  Inserting
`GET /a/*/b` into a fresh tree does fail with `invalidWildcard`, but the
descent has already created the static child `a` under the root before
the wildcard check runs, and that prefix node is retained: the failed
insert grows `root.statics` from 0 to 1 entry. -/
theorem C4_counterexample_prefix_node_retained :
    (insertTree (freshTree defaultRouterOptions) 0 .get (bstr "/a/*/b")).1 =
      .error .invalidWildcard ∧
    (freshTree defaultRouterOptions).root.statics.length = 0 ∧
    (insertTree (freshTree defaultRouterOptions) 0 .get
      (bstr "/a/*/b")).2.root.statics.length = 1 := by
  decide

/-- **C4 (amended).** For every unsealed tree and every insert whose
parsed path contains `*` at a non-final position, the insert fails —
with `invalidWildcard`, or with `paramNameConflicted` when a pattern
segment before the wildcard conflicts with an existing pattern — and no
route key is consumed: `next_route_key` and the worker side table are
unchanged, and every registered route terminal (`chainTerm`) is exactly
as before.  The original claim's stronger "tree left unchanged" is
refuted by `C4_counterexample_prefix_node_retained`: empty prefix nodes
created during the descent are retained. -/
theorem C4_nonterminal_wildcard_rejected_atomic_keys
    (t : MTree) (w : Nat) (m : Method) (p : Bytes) (pre rest : List SegPattern)
    (hseal : t.sealed = false)
    (hprep : preparePathSegments p = .ok (pre ++ wildPat :: rest))
    (hrest : rest ≠ []) :
    ∃ e t2, insertTree t w m p = (.error e, t2) ∧
      (e = ErrCode.invalidWildcard ∨ e = ErrCode.paramNameConflicted) ∧
      t2.next = t.next ∧ t2.side = t.side ∧
      ∀ chain mm, chainTerm t2.root chain mm = chainTerm t.root chain mm := by
  have hp47 : p ≠ [47] := by
    intro hp
    subst hp
    have h47 : preparePathSegments ([47] : Bytes) = .ok [] := by decide
    rw [h47] at hprep
    simp at hprep
  obtain ⟨e, n2, st2, hins, hcls⟩ :=
    insertSegs_wild_nonfinal w m pre rest t.root ⟨t.next, t.side⟩ hrest
  obtain ⟨hst, hchain⟩ := insertSegs_error_preserves w m _ _ _ _ _ _ hins
  refine ⟨e, { t with root := n2, next := st2.next, side := st2.side }, ?_, hcls, ?_, ?_, ?_⟩
  · rw [insertTree, if_neg (by rw [hseal]; exact Bool.false_ne_true), if_neg hp47, hprep]
    dsimp only
    rw [hins]
  · show st2.next = t.next
    rw [hst]
  · show st2.side = t.side
    rw [hst]
  · exact hchain

/-- Witness for `C4_nonterminal_wildcard_rejected_atomic_keys`: the path
`/a/*/b` on a fresh tree, whose parsed segments are
`[a] ++ * :: [b]`. -/
theorem C4_nonterminal_wildcard_rejected_atomic_keys_witness :
    (freshTree defaultRouterOptions).sealed = false ∧
    preparePathSegments (bstr "/a/*/b") =
      .ok ([(⟨[SegPart.lit (bstr "a")]⟩ : SegPattern)] ++
        wildPat :: [(⟨[SegPart.lit (bstr "b")]⟩ : SegPattern)]) ∧
    ([(⟨[SegPart.lit (bstr "b")]⟩ : SegPattern)] ≠ []) ∧
    (∃ e t2, insertTree (freshTree defaultRouterOptions) 0 .get (bstr "/a/*/b") =
        (.error e, t2) ∧
      (e = ErrCode.invalidWildcard ∨ e = ErrCode.paramNameConflicted) ∧
      t2.next = (freshTree defaultRouterOptions).next ∧
      t2.side = (freshTree defaultRouterOptions).side ∧
      ∀ chain mm, chainTerm t2.root chain mm =
        chainTerm (freshTree defaultRouterOptions).root chain mm) :=
  ⟨by decide, by decide, by decide,
    C4_nonterminal_wildcard_rejected_atomic_keys (freshTree defaultRouterOptions) 0 .get
      (bstr "/a/*/b") [⟨[SegPart.lit (bstr "a")]⟩] [⟨[SegPart.lit (bstr "b")]⟩]
      (by decide) (by decide) (by decide)⟩

/-! ## Claim C7: seal monotonicity and idempotence -/

/-- **C7.** Once `seal()` has run: every subsequent `add` and `add_bulk`
fails with `alreadySealed` and leaves the router unchanged; a second
`seal()` is a no-op (the resulting router state is identical, so `find`
after two seals observes the same snapshot as after one); and `find` is
served by the snapshot built from the finalized tree at the first seal
(`OnceLock::set` never replaces an existing snapshot). -/
theorem C7_seal_monotone_idempotent (r : Router) :
    (∀ w m p, routerAdd (routerSeal r) w m p = (.error .alreadySealed, routerSeal r)) ∧
    (∀ w es, routerAddBulk (routerSeal r) w es = (.error .alreadySealed, routerSeal r)) ∧
    routerSeal (routerSeal r) = routerSeal r ∧
    (∀ m p, routerFind (routerSeal (routerSeal r)) m p = routerFind (routerSeal r) m p) ∧
    (r.ro = none → ∀ m p,
      routerFind (routerSeal r) m p = findRO (snapshotOf (finalizeTree r.tree)) m p) := by
  obtain ⟨t, ro⟩ := r
  cases ro with
  | some s0 =>
    refine ⟨fun w m p => rfl, fun w es => rfl, rfl, fun m p => rfl, fun h => ?_⟩
    exact absurd h (by simp)
  | none =>
    exact ⟨fun w m p => rfl, fun w es => rfl, rfl, fun m p => rfl, fun _ m p => rfl⟩

/-- Witness for `C7_seal_monotone_idempotent`: the router holding the
single route `GET /`.  Its seal is idempotent and the sealed `find`
returns the registered route's key `0`. -/
theorem C7_seal_monotone_idempotent_witness :
    c9Router.ro = none ∧
    routerSeal (routerSeal c9Router) = routerSeal c9Router ∧
    routerFind (routerSeal c9Router) Method.get (bstr "/") = .ok (0, []) := by
  refine ⟨rfl, (C7_seal_monotone_idempotent c9Router).2.2.1, ?_⟩
  rw [(C7_seal_monotone_idempotent c9Router).2.2.2.2 rfl Method.get (bstr "/"), c9_snap_eq]
  have hn : normalizeDefault (bstr "/") = .ok [47] := by decide
  simp [findRO, hn, Method.idx, emptyMaps, aFind, c9_find_root]

/-! ## Claim C6: match ordering at a node -/

theorem firstSome_append_none {α β : Type} (f : β → Option α) :
    ∀ (l1 : List β) (pc : β) (l2 : List β) (r : α),
      (∀ x ∈ l1, f x = none) → f pc = some r →
      firstSome ((l1 ++ pc :: l2).map f) = some r := by
  intro l1
  induction l1 with
  | nil =>
    intro pc l2 r _ hpc
    simp only [List.nil_append, List.map_cons]
    rw [hpc]
    rfl
  | cons hd tl ih =>
    intro pc l2 r hnone hpc
    simp only [List.cons_append, List.map_cons]
    rw [hnone hd (by simp), firstSome]
    exact ih pc l2 r (fun x hx => hnone x (by simp [hx])) hpc

theorem singleParamConflict (nm1 nm2 : Bytes) (hne : nm1 ≠ nm2) :
    patternCompatiblePolicy ⟨[SegPart.param nm1]⟩ ⟨[SegPart.param nm2]⟩ = false := by
  simp [patternCompatiblePolicy, hne]

/-- **C6.** During `find_from`, a node with no fused edge and path
remaining is searched static child first, then the dynamic patterns in
stored order with the first successful attempt winning, then the
wildcard (even when a wildcard route is registered).  The
"descending `pattern_score`" part of the claim holds vacuously for
every tree reachable through the API: `parse_segment` only ever
produces a pure literal (which goes to the static children, not the
pattern list) or a pure `:param` segment, and two distinct single-param
patterns at the same node are incompatible, so a second distinct
pattern insert fails with `paramNameConflicted` and a node never stores
two patterns that could compete on score. -/
theorem C6_match_order_static_pattern_wildcard
    (recur : RONode → Nat → Caps → Option (Nat × Caps))
    (n : RONode) (m : Method) (s : Bytes) (i j nextS : Nat) (ps : Caps) (seg : Bytes)
    (hfe : n.fusedE = none)
    (hj : j = skipSlashes s i)
    (hend : ¬ s.length ≤ j)
    (hseg : seg = segAt s j)
    (hnext : nextS = j + seg.length) :
    (∀ r, stepStatic recur n seg nextS ps = some r → findStep recur n m s i ps = some r) ∧
    (∀ r, stepStatic recur n seg nextS ps = none →
      stepPats recur n s j nextS ps seg = some r → findStep recur n m s i ps = some r) ∧
    (stepStatic recur n seg nextS ps = none → stepPats recur n s j nextS ps seg = none →
      findStep recur n m s i ps = stepWild n m s j ps) ∧
    (∀ l1 pc l2 r, n.pats = l1 ++ pc :: l2 →
      (∀ pc2 ∈ l1, tryPat recur s j nextS ps seg pc2 = none) →
      tryPat recur s j nextS ps seg pc = some r →
      stepPats recur n s j nextS ps seg = some r) ∧
    (∀ t pat, parseSegment t = .ok pat →
      (∃ l, pat = ⟨[SegPart.lit l]⟩) ∨ (∃ nm, pat = ⟨[SegPart.param nm]⟩)) ∧
    (∀ nm1 nm2 : Bytes, nm1 ≠ nm2 →
      patternCompatiblePolicy ⟨[SegPart.param nm1]⟩ ⟨[SegPart.param nm2]⟩ = false) ∧
    (∀ w mm (n2 : MNode) st (rest : List SegPattern) nm1 nm2 c, nm1 ≠ nm2 →
      n2.pats = [(⟨[SegPart.param nm1]⟩, c)] →
      insertSegs w mm (⟨[SegPart.param nm2]⟩ :: rest) n2 st =
        (.error .paramNameConflicted, n2, st)) := by
  subst hj
  subst hseg
  subst hnext
  have hstep : findStep recur n m s i ps =
      match stepStatic recur n (segAt s (skipSlashes s i))
          (skipSlashes s i + (segAt s (skipSlashes s i)).length) ps with
      | some r => some r
      | none =>
        match stepPats recur n s (skipSlashes s i)
            (skipSlashes s i + (segAt s (skipSlashes s i)).length) ps
            (segAt s (skipSlashes s i)) with
        | some r => some r
        | none => stepWild n m s (skipSlashes s i) ps := by
    unfold findStep
    rw [hfe]
    rw [if_neg hend]
  refine ⟨?_, ?_, ?_, ?_, ?_, ?_, ?_⟩
  · intro r hst
    rw [hstep, hst]
  · intro r hst hsp
    rw [hstep, hst, hsp]
  · intro hst hsp
    rw [hstep, hst, hsp]
  · intro l1 pc l2 r hpats hnone hpc
    unfold stepPats
    rw [hpats]
    exact firstSome_append_none _ l1 pc l2 r hnone hpc
  · intro t pat h
    unfold parseSegment at h
    split at h
    · simp at h
    · split at h
      · split at h
        · simp at h
        · split at h
          · simp at h
          · split at h
            · simp at h
            · split at h
              · simp at h
              · injection h with h2
                exact Or.inr ⟨_, h2.symm⟩
      · split at h
        · simp at h
        · injection h with h2
          exact Or.inl ⟨_, h2.symm⟩
  · exact singleParamConflict
  · intro w mm n2 st rest nm1 nm2 c hne hpats
    simp only [insertSegs]
    rw [hpats]
    simp [wildPat, singleParamConflict nm1 nm2 hne]

/-- Witness for `C6_match_order_static_pattern_wildcard`: the path `/x`
(`j = 1`, segment `x`, `nextS = 2`) at a fuseless leaf node. -/
theorem C6_match_order_static_pattern_wildcard_witness :
    (RONode.mk none zeros7 zeros7 [] []).fusedE = none ∧
    (1 : Nat) = skipSlashes (bstr "/x") 0 ∧
    ¬ (bstr "/x").length ≤ 1 ∧
    ([120] : Bytes) = segAt (bstr "/x") 1 ∧
    (2 : Nat) = 1 + ([120] : Bytes).length ∧
    ((∀ r, stepStatic (fun _ _ _ => none) (RONode.mk none zeros7 zeros7 [] []) [120] 2 [] =
        some r →
      findStep (fun _ _ _ => none) (RONode.mk none zeros7 zeros7 [] []) Method.get
        (bstr "/x") 0 [] = some r) ∧
    (∀ r, stepStatic (fun _ _ _ => none) (RONode.mk none zeros7 zeros7 [] []) [120] 2 [] =
        none →
      stepPats (fun _ _ _ => none) (RONode.mk none zeros7 zeros7 [] []) (bstr "/x") 1 2 []
        [120] = some r →
      findStep (fun _ _ _ => none) (RONode.mk none zeros7 zeros7 [] []) Method.get
        (bstr "/x") 0 [] = some r) ∧
    (stepStatic (fun _ _ _ => none) (RONode.mk none zeros7 zeros7 [] []) [120] 2 [] = none →
      stepPats (fun _ _ _ => none) (RONode.mk none zeros7 zeros7 [] []) (bstr "/x") 1 2 []
        [120] = none →
      findStep (fun _ _ _ => none) (RONode.mk none zeros7 zeros7 [] []) Method.get
        (bstr "/x") 0 [] =
        stepWild (RONode.mk none zeros7 zeros7 [] []) Method.get (bstr "/x") 1 []) ∧
    (∀ l1 pc l2 r, (RONode.mk none zeros7 zeros7 [] []).pats = l1 ++ pc :: l2 →
      (∀ pc2 ∈ l1, tryPat (fun _ _ _ => none) (bstr "/x") 1 2 [] [120] pc2 = none) →
      tryPat (fun _ _ _ => none) (bstr "/x") 1 2 [] [120] pc = some r →
      stepPats (fun _ _ _ => none) (RONode.mk none zeros7 zeros7 [] []) (bstr "/x") 1 2 []
        [120] = some r) ∧
    (∀ t pat, parseSegment t = .ok pat →
      (∃ l, pat = ⟨[SegPart.lit l]⟩) ∨ (∃ nm, pat = ⟨[SegPart.param nm]⟩)) ∧
    (∀ nm1 nm2 : Bytes, nm1 ≠ nm2 →
      patternCompatiblePolicy ⟨[SegPart.param nm1]⟩ ⟨[SegPart.param nm2]⟩ = false) ∧
    (∀ w mm (n2 : MNode) st (rest : List SegPattern) nm1 nm2 c, nm1 ≠ nm2 →
      n2.pats = [(⟨[SegPart.param nm1]⟩, c)] →
      insertSegs w mm (⟨[SegPart.param nm2]⟩ :: rest) n2 st =
        (.error .paramNameConflicted, n2, st))) :=
  ⟨rfl, by decide, by decide, by decide, by decide,
    C6_match_order_static_pattern_wildcard (fun _ _ _ => none)
      (RONode.mk none zeros7 zeros7 [] []) Method.get (bstr "/x") 0 1 2 [] [120]
      rfl (by decide) (by decide) (by decide) (by decide)⟩

/-! ## Claim C5: bulk key preassignment -/

theorem getD_set_or (l : List Nat) (mi val j : Nat) :
    (l.set mi val).getD j 0 = l.getD j 0 ∨ (l.set mi val).getD j 0 = val := by
  by_cases h : mi = j
  · subst h
    by_cases hl : mi < l.length
    · right
      rw [List.getD_eq_getElem?_getD, List.getElem?_set_self hl]
      rfl
    · left
      rw [List.set_eq_of_length_le (Nat.le_of_not_lt hl)]
  · left
    rw [List.getD_eq_getElem?_getD, List.getD_eq_getElem?_getD, List.getElem?_set_ne h]

theorem sideGet_pad (side : List (Option Nat)) (m j : Nat) :
    sideGet (side ++ List.replicate m none) j = sideGet side j := by
  unfold sideGet
  rcases Nat.lt_or_ge j side.length with h | h
  · rw [List.getD_eq_getElem?_getD, List.getD_eq_getElem?_getD, List.getElem?_append_left h]
  · rw [List.getD_eq_getElem?_getD, List.getD_eq_getElem?_getD,
      List.getElem?_append_right h, List.getElem?_replicate, List.getElem?_eq_none h]
    split
    · rfl
    · rfl

theorem sideGet_set_self (l : List (Option Nat)) (k : Nat) (v : Option Nat)
    (hl : k < l.length) : sideGet (l.set k v) k = v := by
  unfold sideGet
  rw [List.getD_eq_getElem?_getD, List.getElem?_set_self hl]
  rfl

theorem sideGet_set_ne (l : List (Option Nat)) (k j : Nat) (v : Option Nat)
    (hne : j ≠ k) : sideGet (l.set k v) j = sideGet l j := by
  unfold sideGet
  rw [List.getD_eq_getElem?_getD, List.getD_eq_getElem?_getD,
    List.getElem?_set_ne (fun hc => hne hc.symm)]

theorem sideRecord_pad_get (side : List (Option Nat)) (k j : Nat) :
    sideGet (if side.length < k + 1 then
      side ++ List.replicate (k + 1 - side.length) none else side) j = sideGet side j := by
  split
  · exact sideGet_pad side _ j
  · rfl

theorem sideRecord_pad_len (side : List (Option Nat)) (k : Nat) :
    k < (if side.length < k + 1 then
      side ++ List.replicate (k + 1 - side.length) none else side).length := by
  split
  · rename_i h
    simp only [List.length_append, List.length_replicate]
    omega
  · rename_i h
    omega

theorem sideGet_sideRecord_self (side : List (Option Nat)) (k w : Nat)
    (h : sideGet side k = none) : sideGet (sideRecord side k w) k = some w := by
  simp only [sideRecord]
  have hcond : (if side.length < k + 1 then
      side ++ List.replicate (k + 1 - side.length) none else side).getD k none = none :=
    (sideRecord_pad_get side k k).trans h
  rw [if_pos hcond]
  exact sideGet_set_self _ k (some w) (sideRecord_pad_len side k)

theorem sideGet_sideRecord_ne (side : List (Option Nat)) (k w j : Nat) (hne : j ≠ k) :
    sideGet (sideRecord side k w) j = sideGet side j := by
  simp only [sideRecord]
  by_cases hc : (if side.length < k + 1 then
      side ++ List.replicate (k + 1 - side.length) none else side).getD k none = none
  · rw [if_pos hc, sideGet_set_ne _ k j (some w) hne]
    exact sideRecord_pad_get side k j
  · rw [if_neg hc]
    exact sideRecord_pad_get side k j

theorem sideGet_sideRecord_some (side : List (Option Nat)) (k w j : Nat)
    (h : sideGet side j = some w) : sideGet (sideRecord side k w) j = some w := by
  by_cases hj : j = k
  · subst hj
    simp only [sideRecord]
    have hcond : (if side.length < j + 1 then
        side ++ List.replicate (j + 1 - side.length) none else side).getD j none = some w :=
      (sideRecord_pad_get side j j).trans h
    rw [if_neg (fun hc => by rw [hcond] at hc; exact Option.noConfusion hc)]
    exact (sideRecord_pad_get side j j).trans h
  · rw [sideGet_sideRecord_ne side k w j hj]
    exact h

theorem chainTerm_setRoute_or (n : MNode) (mi val : Nat) :
    ∀ chain mm, chainTerm (n.setRoute mi val) chain mm = chainTerm n chain mm ∨
      chainTerm (n.setRoute mi val) chain mm = val := by
  intro chain mm
  cases chain with
  | nil =>
    rw [chainTerm, chainTerm, MNode.routesL_setRoute]
    exact getD_set_or n.routesL mi val mm.idx
  | cons p rest2 =>
    left
    rw [chainTerm, chainTerm]
    by_cases hpw : p = wildPat
    · rw [if_pos hpw, if_pos hpw, MNode.wroutesL_setRoute]
    · rw [if_neg hpw, if_neg hpw]
      by_cases hps : ∃ l2, p.parts = [SegPart.lit l2]
      · obtain ⟨l2, hl2⟩ := hps
        rw [childFor_eq_static _ _ _ hl2, childFor_eq_static _ _ _ hl2,
          MNode.statics_setRoute]
      · have hnp : ∀ l2, p.parts ≠ [SegPart.lit l2] := fun l2 hc2 => hps ⟨l2, hc2⟩
        rw [childFor_eq_pat _ _ hnp, childFor_eq_pat _ _ hnp, MNode.pats_setRoute]

theorem chainTerm_setWRoute_or (n : MNode) (mi val : Nat) :
    ∀ chain mm, chainTerm (n.setWRoute mi val) chain mm = chainTerm n chain mm ∨
      chainTerm (n.setWRoute mi val) chain mm = val := by
  intro chain mm
  cases chain with
  | nil =>
    left
    rw [chainTerm, chainTerm, MNode.routesL_setWRoute]
  | cons p rest2 =>
    rw [chainTerm, chainTerm]
    by_cases hpw : p = wildPat
    · rw [if_pos hpw, if_pos hpw, MNode.wroutesL_setWRoute]
      by_cases hrest : rest2 = []
      · rw [if_pos hrest, if_pos hrest]
        exact getD_set_or n.wroutesL mi val mm.idx
      · rw [if_neg hrest, if_neg hrest]
        exact Or.inl rfl
    · left
      rw [if_neg hpw, if_neg hpw]
      by_cases hps : ∃ l2, p.parts = [SegPart.lit l2]
      · obtain ⟨l2, hl2⟩ := hps
        rw [childFor_eq_static _ _ _ hl2, childFor_eq_static _ _ _ hl2,
          MNode.statics_setWRoute]
      · have hnp : ∀ l2, p.parts ≠ [SegPart.lit l2] := fun l2 hc2 => hps ⟨l2, hc2⟩
        rw [childFor_eq_pat _ _ hnp, childFor_eq_pat _ _ hnp, MNode.pats_setWRoute]

theorem chainTerm_withStatics_aSet_or (v : Nat) (n : MNode) (l : Bytes) (c2 : MNode)
    (hc : ∀ chain mm, chainTerm c2 chain mm =
        chainTerm ((aFind n.statics l).getD emptyNode) chain mm ∨
      chainTerm c2 chain mm = v) :
    ∀ chain mm,
      chainTerm (n.withStatics (aSet n.statics l c2)) chain mm = chainTerm n chain mm ∨
      chainTerm (n.withStatics (aSet n.statics l c2)) chain mm = v := by
  intro chain mm
  cases chain with
  | nil =>
    left
    rw [chainTerm, chainTerm, MNode.routesL_withStatics]
  | cons p rest2 =>
    rw [chainTerm, chainTerm]
    by_cases hpw : p = wildPat
    · left
      rw [if_pos hpw, if_pos hpw, MNode.wroutesL_withStatics]
    · rw [if_neg hpw, if_neg hpw]
      by_cases hps : ∃ l2, p.parts = [SegPart.lit l2]
      · obtain ⟨l2, hl2⟩ := hps
        rw [childFor_eq_static _ _ _ hl2, childFor_eq_static _ _ _ hl2,
          MNode.statics_withStatics]
        by_cases hll : l2 = l
        · subst hll
          rw [aFind_aSet_self]
          cases hfind : aFind n.statics l2 with
          | none =>
            rcases hc rest2 mm with hl3 | hr3
            · left
              rw [hfind] at hl3
              simpa [chainTerm_empty] using hl3
            · right
              exact hr3
          | some c0 =>
            rcases hc rest2 mm with hl3 | hr3
            · left
              rw [hfind] at hl3
              simpa using hl3
            · right
              exact hr3
        · left
          rw [aFind_aSet_ne _ _ _ _ hll]
      · left
        have hnp : ∀ l2, p.parts ≠ [SegPart.lit l2] := fun l2 hc2 => hps ⟨l2, hc2⟩
        rw [childFor_eq_pat _ _ hnp, childFor_eq_pat _ _ hnp, MNode.pats_withStatics]

theorem chainTerm_withPats_set_or (v : Nat) (n : MNode) (j : Nat) (p : SegPattern)
    (c2 : MNode) (hj : idxOfPat n.pats p = some j)
    (hc : ∀ chain mm, chainTerm c2 chain mm =
        chainTerm (n.pats.getD j (wildPat, emptyNode)).2 chain mm ∨
      chainTerm c2 chain mm = v) :
    ∀ chain mm,
      chainTerm (n.withPats (n.pats.set j (p, c2))) chain mm = chainTerm n chain mm ∨
      chainTerm (n.withPats (n.pats.set j (p, c2))) chain mm = v := by
  intro chain mm
  cases chain with
  | nil =>
    left
    rw [chainTerm, chainTerm, MNode.routesL_withPats]
  | cons p2 rest2 =>
    rw [chainTerm, chainTerm]
    by_cases hpw : p2 = wildPat
    · left
      rw [if_pos hpw, if_pos hpw, MNode.wroutesL_withPats]
    · rw [if_neg hpw, if_neg hpw]
      by_cases hps : ∃ l2, p2.parts = [SegPart.lit l2]
      · left
        obtain ⟨l2, hl2⟩ := hps
        rw [childFor_eq_static _ _ _ hl2, childFor_eq_static _ _ _ hl2,
          MNode.statics_withPats]
      · have hnp : ∀ l2, p2.parts ≠ [SegPart.lit l2] := fun l2 hc2 => hps ⟨l2, hc2⟩
        rw [childFor_eq_pat _ _ hnp, childFor_eq_pat _ _ hnp, MNode.pats_withPats]
        by_cases hpp : p2 = p
        · subst hpp
          rw [aFindPat_set_self _ _ _ _ hj, idxOfPat_some_aFindPat _ _ _ hj]
          exact hc rest2 mm
        · left
          rw [aFindPat_set_ne _ _ _ _ hpp _ hj]

theorem chainTerm_withPats_insertIdx_or (v : Nat) (n : MNode) (pos : Nat) (p : SegPattern)
    (c2 : MNode) (hnone : idxOfPat n.pats p = none)
    (hc : ∀ chain mm, chainTerm c2 chain mm = 0 ∨ chainTerm c2 chain mm = v) :
    ∀ chain mm,
      chainTerm (n.withPats (n.pats.insertIdx pos (p, c2))) chain mm =
        chainTerm n chain mm ∨
      chainTerm (n.withPats (n.pats.insertIdx pos (p, c2))) chain mm = v := by
  rcases aFindPat_insertIdx_self p c2 n.pats pos hnone with hself | hsame
  case inr =>
    rw [hsame, MNode.withPats_self]
    exact fun _ _ => Or.inl rfl
  intro chain mm
  cases chain with
  | nil =>
    left
    rw [chainTerm, chainTerm, MNode.routesL_withPats]
  | cons p2 rest2 =>
    rw [chainTerm, chainTerm]
    by_cases hpw : p2 = wildPat
    · left
      rw [if_pos hpw, if_pos hpw, MNode.wroutesL_withPats]
    · rw [if_neg hpw, if_neg hpw]
      by_cases hps : ∃ l2, p2.parts = [SegPart.lit l2]
      · left
        obtain ⟨l2, hl2⟩ := hps
        rw [childFor_eq_static _ _ _ hl2, childFor_eq_static _ _ _ hl2,
          MNode.statics_withPats]
      · have hnp : ∀ l2, p2.parts ≠ [SegPart.lit l2] := fun l2 hc2 => hps ⟨l2, hc2⟩
        rw [childFor_eq_pat _ _ hnp, childFor_eq_pat _ _ hnp, MNode.pats_withPats]
        by_cases hpp : p2 = p
        · subst hpp
          rw [hself, idxOfPat_none_aFindPat _ _ hnone]
          rcases hc rest2 mm with h0 | hv
          · left
            exact h0
          · right
            exact hv
        · left
          rw [aFindPat_insertIdx_ne _ _ _ hpp]

/-- On a chain whose terminal is unclaimed (or claimed by this very
worker, which the preassigned helpers reject), a successful
`insert_parsed_preassigned` always registers exactly the preassigned
key: it returns `key`, records `key` for the worker in the side table,
and every chain terminal is either untouched or set to the stored
`(key + 1) % 2^16`. -/
theorem insertSegsPre_fresh (w : Nat) (m : Method) (key : Nat) :
    ∀ (segs : List SegPattern) (n : MNode) (side : List (Option Nat))
      (k : Nat) (n2 : MNode) (side2 : List (Option Nat)),
      insertSegsPre w m key segs n side = (.ok k, n2, side2) →
      (chainTerm n segs m = 0 ∨ sideGet side (chainTerm n segs m - 1) = some w) →
      k = key ∧ side2 = sideRecord side key w ∧
      ∀ chain mm, chainTerm n2 chain mm = chainTerm n chain mm ∨
        chainTerm n2 chain mm = (key + 1) % 65536 := by
  intro segs
  induction segs with
  | nil =>
    intro n side k n2 side2 h h0
    rw [insertSegsPre] at h
    simp only [assignRouteKeyPre] at h
    rw [chainTerm] at h0
    split at h
    · rename_i hcur
      split at h
      · simp at h
      · rename_i hside
        exfalso
        rcases h0 with h0 | h0
        · exact hcur h0
        · exact hside h0
    · rename_i hcur
      simp only [Prod.mk.injEq, Except.ok.injEq] at h
      obtain ⟨h1, h2, h3⟩ := h
      subst h2
      subst h3
      exact ⟨h1.symm, rfl, chainTerm_setRoute_or n m.idx ((key + 1) % 65536)⟩
  | cons pat rest ih =>
    intro n side k n2 side2 h h0
    simp only [insertSegsPre] at h
    by_cases hw : pat = wildPat
    · subst hw
      rw [if_pos rfl] at h
      simp only [handleWildcardInsertPre] at h
      split at h
      · simp at h
      · rename_i hlast
        have hrest : rest = [] := by
          cases rest with
          | nil => rfl
          | cons a b => simp at hlast
        subst hrest
        have h0' : n.wroutesL.getD m.idx 0 = 0 ∨
            sideGet side (n.wroutesL.getD m.idx 0 - 1) = some w := by
          simpa [chainTerm] using h0
        split at h
        · rename_i hcur
          split at h
          · simp at h
          · rename_i hside
            exfalso
            rcases h0' with h0' | h0'
            · exact hcur h0'
            · exact hside h0'
        · rename_i hcur
          simp only [Prod.mk.injEq, Except.ok.injEq] at h
          obtain ⟨h1, h2, h3⟩ := h
          subst h2
          subst h3
          exact ⟨h1.symm, rfl, chainTerm_setWRoute_or n m.idx ((key + 1) % 65536)⟩
    · rw [if_neg hw] at h
      split at h
      · rename_i l hl
        rcases hrec : insertSegsPre w m key rest ((aFind n.statics l).getD emptyNode) side
          with ⟨r, c2, side2r⟩
        rw [hrec] at h
        simp only [Prod.mk.injEq] at h
        obtain ⟨h1, h2, h3⟩ := h
        subst h1
        subst h2
        subst h3
        have h0' : chainTerm ((aFind n.statics l).getD emptyNode) rest m = 0 ∨
            sideGet side (chainTerm ((aFind n.statics l).getD emptyNode) rest m - 1) =
              some w := by
          cases hfind : aFind n.statics l with
          | none =>
            left
            simp [hfind, chainTerm_empty]
          | some c0 =>
            have heq : chainTerm n (pat :: rest) m = chainTerm c0 rest m := by
              rw [chainTerm, if_neg hw, childFor_eq_static n pat l hl, hfind]
            rw [heq] at h0
            simpa [hfind] using h0
        obtain ⟨hk, hs, hch⟩ := ih _ _ _ _ _ hrec h0'
        exact ⟨hk, hs, chainTerm_withStatics_aSet_or _ n l c2 hch⟩
      · rename_i hnl
        split at h
        · simp at h
        · rename_i hcomp
          split at h
          · rename_i j hj
            rcases hrec : insertSegsPre w m key rest (n.pats.getD j (wildPat, emptyNode)).2 side
              with ⟨r, c2, side2r⟩
            rw [hrec] at h
            simp only [Prod.mk.injEq] at h
            obtain ⟨h1, h2, h3⟩ := h
            subst h1
            subst h2
            subst h3
            have h0' : chainTerm (n.pats.getD j (wildPat, emptyNode)).2 rest m = 0 ∨
                sideGet side (chainTerm (n.pats.getD j (wildPat, emptyNode)).2 rest m - 1) =
                  some w := by
              have heq : chainTerm n (pat :: rest) m =
                  chainTerm (n.pats.getD j (wildPat, emptyNode)).2 rest m := by
                rw [chainTerm, if_neg hw,
                  childFor_eq_pat n pat (fun l hc => hnl l hc),
                  idxOfPat_some_aFindPat _ _ _ hj]
              rw [heq] at h0
              exact h0
            obtain ⟨hk, hs, hch⟩ := ih _ _ _ _ _ hrec h0'
            exact ⟨hk, hs, chainTerm_withPats_set_or _ n j pat c2 hj hch⟩
          · rename_i hj
            rcases hrec : insertSegsPre w m key rest emptyNode side with ⟨r, c2, side2r⟩
            rw [hrec] at h
            simp only [Prod.mk.injEq] at h
            obtain ⟨h1, h2, h3⟩ := h
            subst h1
            subst h2
            subst h3
            obtain ⟨hk, hs, hch⟩ := ih _ _ _ _ _ hrec
              (Or.inl (chainTerm_empty rest m))
            refine ⟨hk, hs, chainTerm_withPats_insertIdx_or _ n _ pat c2 hj ?_⟩
            intro chain mm
            exact (hch chain mm).imp (fun he => he.trans (chainTerm_empty chain mm)) id

/-- The sequential bulk commit: under distinct indices, collision-free
chains and a side table untouched at the preassigned keys, every entry
lands exactly at `base + idx` in the output vector, and untouched output
slots keep their value. -/
theorem commitEntries_keys (w base : Nat) (root0 : MNode) :
    ∀ (l : List PreEntry) (n : MNode) (side : List (Option Nat)) (out : List Nat)
      (K : List Nat) (n2 : MNode) (side2 : List (Option Nat)),
      commitEntries w base l n side out = (.ok K, n2, side2) →
      (∀ chain mm, chainTerm n chain mm = chainTerm root0 chain mm ∨
        (chainTerm n chain mm ≠ 0 ∧
          sideGet side (chainTerm n chain mm - 1) = some w)) →
      (∀ pe ∈ l, chainTerm root0 pe.segs pe.m = 0) →
      (∀ pe ∈ l, sideGet side (base + pe.idx) = none) →
      (∀ pe ∈ l, base + pe.idx + 1 < 65536) →
      (∀ pe ∈ l, pe.idx < out.length) →
      List.Pairwise (fun a b => a.idx ≠ b.idx) l →
      K.length = out.length ∧
      (∀ j, (∀ pe ∈ l, pe.idx ≠ j) → K.getD j 0 = out.getD j 0) ∧
      (∀ pe ∈ l, K.getD pe.idx 0 = base + pe.idx) := by
  intro l
  induction l with
  | nil =>
    intro n side out K n2 side2 h hinv hcol hfresh hbound hlen2 hpair
    rw [commitEntries] at h
    simp only [Prod.mk.injEq, Except.ok.injEq] at h
    obtain ⟨h1, h2, h3⟩ := h
    subst h1
    exact ⟨rfl, fun j _ => rfl, fun pe hpe => absurd hpe (List.not_mem_nil pe)⟩
  | cons pe rest ih =>
    intro n side out K n2 side2 h hinv hcol hfresh hbound hlen2 hpair
    simp only [commitEntries] at h
    rcases hrec : insertSegsPre w pe.m (base + pe.idx) pe.segs n side with ⟨r, n1, side1⟩
    rw [hrec] at h
    cases r with
    | error e => simp at h
    | ok key =>
      have h0 : chainTerm n pe.segs pe.m = 0 ∨
          sideGet side (chainTerm n pe.segs pe.m - 1) = some w := by
        rcases hinv pe.segs pe.m with hl | hr
        · left
          rw [hl]
          exact hcol pe (List.mem_cons_self pe rest)
        · right
          exact hr.2
      obtain ⟨hk, hs1, hch⟩ := insertSegsPre_fresh w pe.m (base + pe.idx)
        pe.segs n side key n1 side1 hrec h0
      subst hk
      have hmod : (base + pe.idx + 1) % 65536 = base + pe.idx + 1 :=
        Nat.mod_eq_of_lt (hbound pe (List.mem_cons_self pe rest))
      have hpairhead := List.pairwise_cons.mp hpair
      have hinv1 : ∀ chain mm, chainTerm n1 chain mm = chainTerm root0 chain mm ∨
          (chainTerm n1 chain mm ≠ 0 ∧
            sideGet side1 (chainTerm n1 chain mm - 1) = some w) := by
        intro chain mm
        rcases hch chain mm with hold | hnew
        · rw [hold]
          rcases hinv chain mm with hl | hr
          · left
            exact hl
          · right
            refine ⟨hr.1, ?_⟩
            rw [hs1]
            exact sideGet_sideRecord_some side (base + pe.idx) w _ hr.2
        · right
          rw [hnew, hmod]
          refine ⟨Nat.succ_ne_zero _, ?_⟩
          rw [Nat.add_sub_cancel, hs1]
          exact sideGet_sideRecord_self side (base + pe.idx) w
            (hfresh pe (List.mem_cons_self pe rest))
      have hfresh1 : ∀ pe2 ∈ rest, sideGet side1 (base + pe2.idx) = none := by
        intro pe2 hpe2
        rw [hs1, sideGet_sideRecord_ne side (base + pe.idx) w (base + pe2.idx)
          (fun hc => hpairhead.1 pe2 hpe2 (by omega))]
        exact hfresh pe2 (List.mem_cons_of_mem pe hpe2)
      obtain ⟨hlen, hfix, hmem⟩ := ih n1 side1 (out.set pe.idx (base + pe.idx)) K n2 side2 h
        hinv1
        (fun pe2 hpe2 => hcol pe2 (List.mem_cons_of_mem pe hpe2))
        hfresh1
        (fun pe2 hpe2 => hbound pe2 (List.mem_cons_of_mem pe hpe2))
        (fun pe2 hpe2 => by
          rw [List.length_set]
          exact hlen2 pe2 (List.mem_cons_of_mem pe hpe2))
        hpairhead.2
      refine ⟨by rw [hlen, List.length_set], ?_, ?_⟩
      · intro j hj
        rw [hfix j (fun pe2 hpe2 => hj pe2 (List.mem_cons_of_mem pe hpe2))]
        rw [List.getD_eq_getElem?_getD, List.getD_eq_getElem?_getD,
          List.getElem?_set_ne (hj pe (List.mem_cons_self pe rest))]
      · intro pe2 hpe2
        rcases List.mem_cons.mp hpe2 with hpe2 | hpe2
        · subst hpe2
          rw [hfix pe2.idx (fun pe3 hpe3 hc => hpairhead.1 pe3 hpe3 hc.symm)]
          rw [List.getD_eq_getElem?_getD,
            List.getElem?_set_self (hlen2 pe2 (List.mem_cons_self pe2 rest))]
          rfl
        · exact hmem pe2 hpe2

theorem parseEntries_idx :
    ∀ (l : List (Nat × Method × Bytes)) (pre : List PreEntry),
      parseEntries l = .ok pre → pre.map PreEntry.idx = l.map (fun e => e.1) := by
  intro l
  induction l with
  | nil =>
    intro pre h
    rw [parseEntries] at h
    simp only [Except.ok.injEq] at h
    subst h
    rfl
  | cons e rest ih =>
    intro pre h
    obtain ⟨i, m, p⟩ := e
    rw [parseEntries] at h
    split at h
    · simp at h
    · rename_i segs hsegs
      split at h
      · simp at h
      · rename_i tl htl
        simp only [Except.ok.injEq] at h
        subst h
        simp only [List.map_cons]
        rw [ih tl htl]

/-- **C5 (amended).** For every unsealed tree whose worker side table is
clean at keys `≥ next_route_key` and whose existing routes do not
collide with any bulk entry (no entry re-registers an already-present
route), a successful `add_bulk` of `N` entries returns a vector `K`
with `K[i] = base + i` for every input index `i` — input order
preserved despite the internal bucket sort — and leaves
`next_route_key = base + N`.  The original claim's unconditional form
fails when an entry duplicates a route registered earlier by a
different worker: the commit then returns the existing key instead of
`base + i` (`C5_counterexample_existing_route_key`). -/
theorem C5_bulk_keys_in_input_order (t : MTree) (w : Nat)
    (entries : List (Method × Bytes)) (pre : List PreEntry) (K : List Nat) (t2 : MTree)
    (hpre : parseEntries (entries.enum.map (fun ie => (ie.1, ie.2.1, ie.2.2))) = .ok pre)
    (hcol : ∀ pe ∈ pre, chainTerm t.root pe.segs pe.m = 0)
    (hside : ∀ j, t.next ≤ j → sideGet t.side j = none)
    (hbulk : insertBulk t w entries = (.ok K, t2)) :
    K.length = entries.length ∧
    (∀ i, i < entries.length → K.getD i 0 = t.next + i) ∧
    t2.next = t.next + entries.length := by
  have hidx : pre.map PreEntry.idx = List.range entries.length := by
    rw [parseEntries_idx _ pre hpre, List.map_map]
    have hco : ((fun e : Nat × Method × Bytes => e.1) ∘
        (fun ie : Nat × (Method × Bytes) => (ie.1, ie.2.1, ie.2.2))) = Prod.fst := rfl
    rw [hco, List.enum_map_fst]
  have hpreN : pre.length = entries.length := by
    have hh := congrArg List.length hidx
    simpa using hh
  have hmemidx : ∀ pe ∈ pre, pe.idx < entries.length := by
    intro pe hpe
    have : pe.idx ∈ pre.map PreEntry.idx := List.mem_map_of_mem PreEntry.idx hpe
    rw [hidx] at this
    exact List.mem_range.mp this
  have hpairpre : pre.Pairwise (fun a b => a.idx ≠ b.idx) := by
    have hnodup : (pre.map PreEntry.idx).Nodup := by
      rw [hidx]
      exact List.nodup_range _
    exact List.pairwise_map.mp hnodup
  have hperm : (pre.mergeSort preLE).Perm pre := List.mergeSort_perm pre preLE
  have hlenS : (pre.mergeSort preLE).length = pre.length := hperm.length_eq
  have hmem2 : ∀ pe ∈ pre.mergeSort preLE, pe ∈ pre := fun pe h => hperm.mem_iff.mp h
  have hpair2 : (pre.mergeSort preLE).Pairwise (fun a b => a.idx ≠ b.idx) :=
    (hperm.pairwise_iff (fun hab hc => hab hc.symm)).mpr hpairpre
  simp only [insertBulk] at hbulk
  split at hbulk
  · simp at hbulk
  · rw [hpre] at hbulk
    dsimp only at hbulk
    split at hbulk
    · simp at hbulk
    · rename_i hnn
      rcases hcomm : commitEntries w t.next (pre.mergeSort preLE) t.root t.side
          (List.replicate (pre.mergeSort preLE).length 0)
        with ⟨r, n2, side2⟩
      rw [hcomm] at hbulk
      simp only [Prod.mk.injEq] at hbulk
      obtain ⟨hb1, hb2⟩ := hbulk
      subst hb1
      have hNlt : t.next + entries.length < 65535 := by
        have : ¬ maxRoutes ≤ t.next + (pre.mergeSort preLE).length := hnn
        rw [hlenS, hpreN] at this
        unfold maxRoutes at this
        omega
      obtain ⟨hlen, hfix, hmem⟩ := commitEntries_keys w t.next t.root
        (pre.mergeSort preLE) t.root t.side
        (List.replicate (pre.mergeSort preLE).length 0) K n2 side2 hcomm
        (fun chain mm => Or.inl rfl)
        (fun pe hpe => hcol pe (hmem2 pe hpe))
        (fun pe hpe => hside _ (Nat.le_add_right _ _))
        (fun pe hpe => by
          have := hmemidx pe (hmem2 pe hpe)
          omega)
        (fun pe hpe => by
          rw [List.length_replicate, hlenS, hpreN]
          exact hmemidx pe (hmem2 pe hpe))
        hpair2
      refine ⟨?_, ?_, ?_⟩
      · rw [hlen, List.length_replicate, hlenS, hpreN]
      · intro i hi
        have hiin : i ∈ pre.map PreEntry.idx := by
          rw [hidx]
          exact List.mem_range.mpr hi
        obtain ⟨pe, hpe, hpei⟩ := List.mem_map.mp hiin
        have hpe2 : pe ∈ pre.mergeSort preLE := hperm.mem_iff.mpr hpe
        have := hmem pe hpe2
        rw [hpei] at this
        exact this
      · rw [← hb2]
        show (t.next + (pre.mergeSort preLE).length) % 65536 = t.next + entries.length
        rw [hlenS, hpreN]
        exact Nat.mod_eq_of_lt (by omega)

/-- **C5 counterexample.** Worker 1 registers `GET /a` (key 0,
`next_route_key` becomes 1).  Worker 2 then calls `add_bulk` with the
single entry `GET /a`: the call succeeds but returns `[0]` — the
existing route's key — not `[base + 0] = [1]` as the claim requires,
while `next_route_key` still advances to 2. -/
theorem C5_counterexample_existing_route_key :
    (insertTree (freshTree defaultRouterOptions) 1 Method.get (bstr "/a")).1 = .ok 0 ∧
    (insertTree (freshTree defaultRouterOptions) 1 Method.get (bstr "/a")).2.next = 1 ∧
    (insertBulk (insertTree (freshTree defaultRouterOptions) 1 Method.get (bstr "/a")).2 2
      [(Method.get, bstr "/a")]).1 = .ok [0] ∧
    (insertBulk (insertTree (freshTree defaultRouterOptions) 1 Method.get (bstr "/a")).2 2
      [(Method.get, bstr "/a")]).2.next = 2 := by
  have hparse1 : parseEntries ((([(Method.get, bstr "/a")] : List (Method × Bytes)).enum).map
      (fun ie => (ie.1, ie.2.1, ie.2.2))) =
      .ok [⟨0, Method.get, [⟨[SegPart.lit [97]]⟩], 97, 2, true⟩] := by decide
  have hms1 : List.mergeSort
      [(⟨0, Method.get, [⟨[SegPart.lit [97]]⟩], 97, 2, true⟩ : PreEntry)] preLE =
      [⟨0, Method.get, [⟨[SegPart.lit [97]]⟩], 97, 2, true⟩] := by
    simp [List.mergeSort]
  refine ⟨by decide, by decide, ?_, ?_⟩
  · simp only [insertBulk]
    rw [hparse1]
    dsimp only
    rw [hms1]
    decide
  · simp only [insertBulk]
    rw [hparse1]
    dsimp only
    rw [hms1]
    decide

/-- Witness for `C5_bulk_keys_in_input_order`: a fresh tree and the
three entries `GET /a`, `POST /a`, `GET /bb` (keys `[0, 1, 2]`). -/
theorem C5_bulk_keys_in_input_order_witness :
    parseEntries (([(Method.get, bstr "/a"), (Method.post, bstr "/a"),
        (Method.get, bstr "/bb")] : List (Method × Bytes)).enum.map
        (fun ie => (ie.1, ie.2.1, ie.2.2))) =
      .ok [⟨0, Method.get, [⟨[SegPart.lit [97]]⟩], 97, 2, true⟩,
           ⟨1, Method.post, [⟨[SegPart.lit [97]]⟩], 97, 2, true⟩,
           ⟨2, Method.get, [⟨[SegPart.lit [98, 98]]⟩], 98, 3, true⟩] ∧
    (∀ pe ∈ ([⟨0, Method.get, [⟨[SegPart.lit [97]]⟩], 97, 2, true⟩,
           ⟨1, Method.post, [⟨[SegPart.lit [97]]⟩], 97, 2, true⟩,
           ⟨2, Method.get, [⟨[SegPart.lit [98, 98]]⟩], 98, 3, true⟩] : List PreEntry),
      chainTerm (freshTree defaultRouterOptions).root pe.segs pe.m = 0) ∧
    (∀ j, (freshTree defaultRouterOptions).next ≤ j →
      sideGet (freshTree defaultRouterOptions).side j = none) ∧
    (([0, 1, 2] : List Nat).length =
        ([(Method.get, bstr "/a"), (Method.post, bstr "/a"),
          (Method.get, bstr "/bb")] : List (Method × Bytes)).length ∧
      (∀ i, i < ([(Method.get, bstr "/a"), (Method.post, bstr "/a"),
          (Method.get, bstr "/bb")] : List (Method × Bytes)).length →
        ([0, 1, 2] : List Nat).getD i 0 = (freshTree defaultRouterOptions).next + i) ∧
      (insertBulk (freshTree defaultRouterOptions) 0
        [(Method.get, bstr "/a"), (Method.post, bstr "/a"),
          (Method.get, bstr "/bb")]).2.next =
        (freshTree defaultRouterOptions).next +
          ([(Method.get, bstr "/a"), (Method.post, bstr "/a"),
            (Method.get, bstr "/bb")] : List (Method × Bytes)).length) := by
  have hparse3 : parseEntries (([(Method.get, bstr "/a"), (Method.post, bstr "/a"),
      (Method.get, bstr "/bb")] : List (Method × Bytes)).enum.map
      (fun ie => (ie.1, ie.2.1, ie.2.2))) =
      .ok [⟨0, Method.get, [⟨[SegPart.lit [97]]⟩], 97, 2, true⟩,
           ⟨1, Method.post, [⟨[SegPart.lit [97]]⟩], 97, 2, true⟩,
           ⟨2, Method.get, [⟨[SegPart.lit [98, 98]]⟩], 98, 3, true⟩] := by decide
  have hms3 : List.mergeSort
      [(⟨0, Method.get, [⟨[SegPart.lit [97]]⟩], 97, 2, true⟩ : PreEntry),
       ⟨1, Method.post, [⟨[SegPart.lit [97]]⟩], 97, 2, true⟩,
       ⟨2, Method.get, [⟨[SegPart.lit [98, 98]]⟩], 98, 3, true⟩] preLE =
      [⟨0, Method.get, [⟨[SegPart.lit [97]]⟩], 97, 2, true⟩,
       ⟨1, Method.post, [⟨[SegPart.lit [97]]⟩], 97, 2, true⟩,
       ⟨2, Method.get, [⟨[SegPart.lit [98, 98]]⟩], 98, 3, true⟩] := by
    simp [List.mergeSort, List.splitInTwo, List.splitAt_eq, List.merge, preLE]
  have hbulk : insertBulk (freshTree defaultRouterOptions) 0
      [(Method.get, bstr "/a"), (Method.post, bstr "/a"), (Method.get, bstr "/bb")] =
      (.ok [0, 1, 2], (insertBulk (freshTree defaultRouterOptions) 0
        [(Method.get, bstr "/a"), (Method.post, bstr "/a"), (Method.get, bstr "/bb")]).2) := by
    have h1 : (insertBulk (freshTree defaultRouterOptions) 0
        [(Method.get, bstr "/a"), (Method.post, bstr "/a"), (Method.get, bstr "/bb")]).1 =
        .ok [0, 1, 2] := by
      simp only [insertBulk]
      rw [hparse3]
      dsimp only
      rw [hms3]
      decide
    rw [← h1]
  refine ⟨by decide, by decide, fun j _ => rfl, ?_⟩
  exact C5_bulk_keys_in_input_order (freshTree defaultRouterOptions) 0
    [(Method.get, bstr "/a"), (Method.post, bstr "/a"), (Method.get, bstr "/bb")]
    [⟨0, Method.get, [⟨[SegPart.lit [97]]⟩], 97, 2, true⟩,
     ⟨1, Method.post, [⟨[SegPart.lit [97]]⟩], 97, 2, true⟩,
     ⟨2, Method.get, [⟨[SegPart.lit [98, 98]]⟩], 98, 3, true⟩]
    [0, 1, 2]
    (insertBulk (freshTree defaultRouterOptions) 0
      [(Method.get, bstr "/a"), (Method.post, bstr "/a"), (Method.get, bstr "/bb")]).2
    hparse3 (by decide) (fun j _ => rfl) hbulk

/-! ## Claim C1: the add/find round trip -/

def c1xRouter : Router :=
  (routerAdd (routerAdd (routerNew defaultRouterOptions) 0 Method.get (bstr "/*")).2
    0 Method.get (bstr "/:x")).2

def c1xInner : MNode := MNode.mk [] [] [] [2, 0, 0, 0, 0, 0, 0] zeros7 none none

def c1xRootLit : MNode :=
  MNode.mk [] [(⟨[SegPart.param [120]]⟩, c1xInner)] [] zeros7 [1, 0, 0, 0, 0, 0, 0]
    none none

def c1xROInner : RONode := RONode.mk none [2, 0, 0, 0, 0, 0, 0] zeros7 [] []

def c1xROLit : RONode :=
  RONode.mk none zeros7 [1, 0, 0, 0, 0, 0, 0] [] [(⟨[SegPart.param [120]]⟩, c1xROInner)]

theorem c1x_snap_eq :
    snapshotOf (finalizeTree c1xRouter.tree) = ⟨emptyMaps, c1xROLit⟩ := by
  have hinner : compressNode c1xInner = c1xInner := by
    rw [compressNode.eq_def]
    simp [c1xInner, allZeroL, zeros7]
  have hc : compressNode c1xRootLit = c1xRootLit := by
    rw [compressNode.eq_def]
    simp [c1xRootLit, hinner]
  have hcnti : countRoutesNode c1xInner = 1 := by
    rw [countRoutesNode.eq_def]
    simp [c1xInner]
  have hcnt : countRoutesNode c1xRootLit = 1 := by
    rw [countRoutesNode.eq_def]
    simp [c1xRootLit, hcnti, zeros7]
  have hfin : finalizeTree c1xRouter.tree =
      { root := c1xRootLit, sealed := true, next := 2, side := [],
        opts := defaultRouterOptions, staticFlagP := false, maps := emptyMaps } := by
    unfold finalizeTree staticMapFlag
    rw [show c1xRouter.tree.sealed = false from rfl]
    simp only [Bool.false_eq_true, if_false]
    rw [show c1xRouter.tree.root = c1xRootLit from rfl, hc, hcnt]
    rfl
  have hfni : fromNode c1xInner = c1xROInner := by
    rw [fromNode.eq_def]
    simp [c1xInner, c1xROInner]
  have hfn : fromNode c1xRootLit = c1xROLit := by
    rw [fromNode.eq_def]
    simp [c1xRootLit, c1xROLit, hfni]
  rw [hfin]
  unfold snapshotOf
  simp [hfn]

theorem c1x_find :
    findRO ⟨emptyMaps, c1xROLit⟩ Method.get (bstr "/*") = .ok (1, [([120], 1, 1)]) := by
  have hroi : roSize c1xROInner = 1 := by
    rw [roSize.eq_def]
    simp [c1xROInner]
  have hro : roSize c1xROLit = 2 := by
    rw [roSize.eq_def]
    simp [c1xROLit, hroi]
  have hnorm : normalizeDefault (bstr "/*") = .ok [47, 42] := by decide
  have hff : findFrom c1xROLit Method.get [47, 42] 0 [] = some (1, [([120], 1, 1)]) := by
    rw [findFrom, hro]
    decide
  unfold findRO
  rw [hnorm]
  simp [Method.idx, emptyMaps, aFind, hff]

/-- A second way the unrestricted round trip fails: `add(GET, "/*")`
succeeds with key 0 and `add(GET, "/:x")` succeeds with key 1.  After
seal, `find(GET, "/*")` — `"/*"` is its own normalization — returns
`(1, [x ↦ "*"])`, the pattern route's key with `"*"` captured as the
parameter, not `(0, …)`: at a node the dynamic patterns are tried
before the wildcard terminal, so the wildcard route's own path no
longer round-trips once a pattern route shares the node. -/
theorem wildcard_shadowed_by_pattern :
    (routerAdd (routerNew defaultRouterOptions) 0 Method.get (bstr "/*")).1 = .ok 0 ∧
    (routerAdd (routerAdd (routerNew defaultRouterOptions) 0 Method.get (bstr "/*")).2
      0 Method.get (bstr "/:x")).1 = .ok 1 ∧
    normalizePath (bstr "/*") defaultNormOptions = .ok (bstr "/*") ∧
    routerFind (routerSeal c1xRouter) Method.get (bstr "/*") = .ok (1, [([120], 1, 1)]) := by
  refine ⟨by decide, by decide, by decide, ?_⟩
  have hwire : routerFind (routerSeal c1xRouter) Method.get (bstr "/*") =
      findRO (snapshotOf (finalizeTree c1xRouter.tree)) Method.get (bstr "/*") := rfl
  rw [hwire, c1x_snap_eq, c1x_find]

theorem procByte_plain (b : Nat) (st : NormSt) (h32 : 32 < b) (h47 : b ≠ 47) :
    procByte b defaultNormOptions st =
      .ok { st with out := st.out ++ [b], prev := false } := by
  unfold procByte
  rw [if_neg h47, if_neg (by omega)]
  simp [defaultNormOptions]

theorem normLoop_plain :
    ∀ (l2 : Bytes) (st : NormSt), (∀ b ∈ l2, 32 < b ∧ b ≠ 47 ∧ b ≠ 37) →
      normLoop defaultNormOptions l2 st =
        .ok { st with out := st.out ++ l2, prev := if l2 = [] then st.prev else false } := by
  intro l2
  induction l2 with
  | nil =>
    intro st _
    rw [normLoop]
    simp
  | cons b r ih =>
    intro st hb
    obtain ⟨h32, h47, h37⟩ := hb b (List.mem_cons_self b r)
    rw [normLoop_cons_plain (by simp [defaultNormOptions])]
    rw [procByte_plain b st h32 h47]
    dsimp only
    rw [ih _ (fun b2 hb2 => hb b2 (List.mem_cons_of_mem b hb2))]
    simp

theorem dropRevSlashes_ne (b : Nat) (rest : Bytes) (hb : b ≠ 47) :
    dropRevSlashes (b :: rest) = b :: rest := by
  rw [dropRevSlashes.eq_def]
  split
  · rename_i heq
    cases heq
    exact absurd rfl hb
  · rfl

theorem utf8Valid_ascii : ∀ (l2 : Bytes), (∀ b ∈ l2, b < 128) → utf8Valid l2 = true := by
  intro l2
  induction l2 with
  | nil =>
    intro _
    rfl
  | cons b r ih =>
    intro hb
    show utf8Run (b :: r) 0 0 0 = true
    rw [utf8Run, if_pos rfl, if_pos (hb b (List.mem_cons_self b r))]
    exact ih (fun b2 hb2 => hb b2 (List.mem_cons_of_mem b hb2))

theorem normalizePath_plain (l : Bytes) (hne : l ≠ [])
    (hb : ∀ b ∈ l, 32 < b ∧ b < 128 ∧ b ≠ 37 ∧ b ≠ 46 ∧ b ≠ 47) :
    normalizePath (47 :: l) defaultNormOptions = .ok (47 :: l) := by
  have hstep1 : normLoop defaultNormOptions (47 :: l) ⟨[], false, 0, false⟩ =
      .ok ⟨47 :: l, if l = [] then true else false, 1, false⟩ := by
    rw [normLoop_cons_plain (by simp [defaultNormOptions])]
    have hp : procByte 47 defaultNormOptions ⟨[], false, 0, false⟩ =
        .ok ⟨[47], true, 1, false⟩ := by decide
    rw [hp]
    dsimp only
    rw [normLoop_plain l ⟨[47], true, 1, false⟩
      (fun b2 hb2 => ⟨(hb b2 hb2).1, (hb b2 hb2).2.2.2.2, (hb b2 hb2).2.2.1⟩)]
    rfl
  have h4646 : l ≠ [46, 46] := by
    intro hc
    exact absurd rfl (hb 46 (by rw [hc]; simp)).2.2.2.1
  have hdd : dotdotAt (47 :: l) 1 = false := by
    unfold dotdotAt
    have hdrop : (47 :: l).drop 1 = l := rfl
    rw [hdrop]
    simp [h4646]
  have htrim : trimSlashes (47 :: l) = 47 :: l := by
    unfold trimSlashes
    cases hrev : l.reverse with
    | nil =>
      exact absurd (by simpa using congrArg List.reverse hrev) hne
    | cons lb lrest =>
      have hlb : lb ≠ 47 := by
        have hmem : lb ∈ l := by
          rw [← List.mem_reverse, hrev]
          exact List.mem_cons_self lb lrest
        exact (hb lb hmem).2.2.2.2
      have hrev2 : (47 :: l).reverse = lb :: (lrest ++ [47]) := by
        rw [List.reverse_cons, hrev]
        rfl
      rw [hrev2, dropRevSlashes_ne lb (lrest ++ [47]) hlb, ← hrev2, List.reverse_reverse]
  have h128 : ∀ b2 ∈ 47 :: l, b2 < 128 := by
    intro b2 hb2
    rcases List.mem_cons.mp hb2 with h | h
    · omega
    · exact (hb b2 h).2.1
  unfold normalizePath
  rw [if_neg (by simp), hstep1]
  dsimp only
  rw [hdd]
  simp only [Bool.or_false]
  rw [htrim]
  simp only [ite_self]
  rw [if_neg (by simp)]
  rw [utf8Valid_ascii (47 :: l) h128]
  simp

theorem contains_false_of_not_mem (l2 : Bytes) (a : Nat) (h : a ∉ l2) :
    l2.contains a = false := by
  induction l2 with
  | nil => rfl
  | cons b r ih =>
    show List.elem a (b :: r) = false
    rw [List.elem]
    have hba : (a == b) = false := by
      have hne2 : a ≠ b := fun hc => h (hc ▸ List.mem_cons_self b r)
      simpa using hne2
    rw [hba]
    exact ih (fun hc => h (List.mem_cons_of_mem b hc))

theorem splitSlash_no47 : ∀ (l2 : Bytes), 47 ∉ l2 → splitSlash l2 = [l2] := by
  intro l2
  induction l2 with
  | nil =>
    intro _
    rfl
  | cons b r ih =>
    intro h
    rw [splitSlash]
    rw [ih (fun hc => h (List.mem_cons_of_mem b hc))]
    rw [if_neg (fun hc : b = 47 => h (hc ▸ List.mem_cons_self b r))]

theorem parseSegment_plain (l : Bytes) (hne : l ≠ [])
    (hb : ∀ b ∈ l, b ≠ 40 ∧ b ≠ 41 ∧ b ≠ 58) :
    parseSegment l = .ok ⟨[SegPart.lit l]⟩ := by
  have h40 : l.contains 40 = false :=
    contains_false_of_not_mem l 40 (fun hc => (hb 40 hc).1 rfl)
  have h41 : l.contains 41 = false :=
    contains_false_of_not_mem l 41 (fun hc => (hb 41 hc).2.1 rfl)
  have h58 : l.contains 58 = false :=
    contains_false_of_not_mem l 58 (fun hc => (hb 58 hc).2.2 rfl)
  cases l with
  | nil => exact absurd rfl hne
  | cons b0 rest =>
    have hb0 : b0 ≠ 58 := (hb b0 (List.mem_cons_self b0 rest)).2.2
    unfold parseSegment
    rw [h40, h41]
    simp only [Bool.or_self, Bool.false_eq_true, if_false]
    split
    · rename_i nameBytes heq
      exfalso
      have hb058 : b0 = 58 := by
        have hh := congrArg (fun x => x.headD 0) heq
        simpa using hh
      exact hb0 hb058
    · rw [h58]
      rfl

theorem preparePathSegments_plain (l : Bytes) (hne : l ≠ []) (hlen : l.length ≤ 255)
    (hb : ∀ b ∈ l, 32 < b ∧ b < 128 ∧ b ≠ 37 ∧ b ≠ 40 ∧ b ≠ 41 ∧ b ≠ 42 ∧ b ≠ 46 ∧
      b ≠ 47 ∧ b ≠ 58) :
    preparePathSegments (47 :: l) = .ok [⟨[SegPart.lit l]⟩] := by
  have hnorm : normalizeDefault (47 :: l) = .ok (47 :: l) := by
    unfold normalizeDefault
    exact normalizePath_plain l hne
      (fun b h => ⟨(hb b h).1, (hb b h).2.1, (hb b h).2.2.1,
        (hb b h).2.2.2.2.2.2.1, (hb b h).2.2.2.2.2.2.2.1⟩)
  unfold preparePathSegments
  rw [hnorm]
  rw [show (match (Except.ok (47 :: l) : Except ErrCode Bytes) with
    | .error e => (.error e : Except ErrCode (List SegPattern))
    | .ok norm =>
      if norm = [47] then .ok []
      else
        let texts := (splitSlash norm).filter (· ≠ [])
        if texts = [] then .error .invalidPath
        else parseSegsLoop texts []) =
    (if (47 :: l) = [47] then .ok []
      else
        let texts := (splitSlash (47 :: l)).filter (· ≠ [])
        if texts = [] then .error .invalidPath
        else parseSegsLoop texts []) from rfl]
  rw [if_neg (by simpa using hne)]
  have hsplit : splitSlash (47 :: l) = [[], l] := by
    rw [splitSlash]
    rw [splitSlash_no47 l (fun hc => (hb 47 hc).2.2.2.2.2.2.2.1 rfl)]
    rw [if_pos rfl]
  rw [hsplit]
  have hfilter : ([[], l] : List Bytes).filter (· ≠ []) = [l] := by
    simp [List.filter, hne]
  rw [hfilter]
  rw [if_neg (by simp)]
  rw [show parseSegsLoop [l] ([] : List Bytes) =
    (match parseSegment l with
     | .error e => .error e
     | .ok pat =>
       if !(validSegLen (minLenOf pat) && validSegLen (lastLitOf pat)) then
         .error .patternTooLong
       else
         match checkParams pat.parts [] with
         | .error e => .error e
         | .ok seen2 =>
           match parseSegsLoop [] seen2 with
           | .error e => .error e
           | .ok pats => .ok (pat :: pats)) from rfl]
  rw [parseSegment_plain l hne
    (fun b h => ⟨(hb b h).2.2.2.1, (hb b h).2.2.2.2.1, (hb b h).2.2.2.2.2.2.2.2⟩)]
  dsimp only
  have hmin : minLenOf ⟨[SegPart.lit l]⟩ = l.length := by
    unfold minLenOf
    simp [Nat.mod_eq_of_lt (by omega : l.length < 65536)]
  have hlast : lastLitOf ⟨[SegPart.lit l]⟩ = l.length := by
    unfold lastLitOf
    simp [Nat.mod_eq_of_lt (by omega : l.length < 65536)]
  have hvalid : validSegLen l.length = true := by
    unfold validSegLen
    simpa using hlen
  simp only [hmin, hlast, hvalid, Bool.and_self, Bool.not_true, Bool.false_eq_true, if_false]
  have hcp : checkParams [SegPart.lit l] [] = .ok [] := by
    rw [checkParams, checkParams]
  rw [hcp]
  rfl

def c1Leaf (m : Method) : MNode :=
  MNode.mk [] [] [] (zeros7.set m.idx 1) zeros7 none none

def c1Root (l : Bytes) (m : Method) : MNode :=
  MNode.mk [(l, c1Leaf m)] [] [] zeros7 zeros7 none none

def c1RootC (l : Bytes) (m : Method) : MNode :=
  MNode.mk [] [] [] zeros7 zeros7 (some l) (some (c1Leaf m))

def c1RoLeaf (m : Method) : RONode :=
  RONode.mk none (zeros7.set m.idx 1) zeros7 [] []

def c1Ro (l : Bytes) (m : Method) : RONode :=
  RONode.mk (some l) zeros7 zeros7 [([], c1RoLeaf m)] []

theorem c1_insert (l : Bytes) (m : Method) (hne : l ≠ []) (hlen : l.length ≤ 255)
    (h42 : l ≠ [42])
    (hb : ∀ b ∈ l, 32 < b ∧ b < 128 ∧ b ≠ 37 ∧ b ≠ 40 ∧ b ≠ 41 ∧ b ≠ 42 ∧ b ≠ 46 ∧
      b ≠ 47 ∧ b ≠ 58) :
    insertTree (freshTree defaultRouterOptions) 0 m (47 :: l) =
      (.ok 0, ⟨c1Root l m, false, 1, [some 0], defaultRouterOptions, false, emptyMaps⟩) := by
  have hwild : (⟨[SegPart.lit l]⟩ : SegPattern) ≠ wildPat := by
    intro hc
    apply h42
    have hh := congrArg SegPattern.parts hc
    simpa [wildPat] using hh
  unfold insertTree
  rw [if_neg (by simp [freshTree])]
  rw [if_neg (by simpa using hne)]
  rw [preparePathSegments_plain l hne hlen hb]
  dsimp only
  simp only [insertSegs]
  rw [if_neg hwild]
  dsimp only
  have hfind : aFind (freshTree defaultRouterOptions).root.statics l = none := rfl
  rw [hfind]
  simp only [assignRouteKey]
  have hcur : ((none : Option MNode).getD emptyNode).routesL.getD m.idx 0 = 0 :=
    zeros7_getD m.idx
  rw [hcur]
  rw [if_neg (by simp), if_neg (by decide)]
  rfl

theorem c1_allZero_leaf (m : Method) : allZeroL (zeros7.set m.idx 1) = false := by
  cases m <;> decide

theorem c1_leaf_getD (m : Method) : (zeros7.set m.idx 1).getD m.idx 0 = 1 := by
  cases m <;> decide

theorem c1_compress_leaf (m : Method) : compressNode (c1Leaf m) = c1Leaf m := by
  rw [compressNode.eq_def]
  simp [c1Leaf, c1_allZero_leaf]

theorem c1_absorb_leaf (l : Bytes) (m : Method) : absorb l (c1Leaf m) = (l, c1Leaf m) := by
  rw [absorb.eq_def, if_neg (show ¬(((c1Leaf m).pats.isEmpty && allZeroL (c1Leaf m).routesL
    && allZeroL (c1Leaf m).wroutesL) = true) from by
      simp [c1Leaf, MNode.pats, MNode.routesL, MNode.wroutesL, c1_allZero_leaf])]

theorem c1_compress_root (l : Bytes) (m : Method) :
    compressNode (c1Root l m) = c1RootC l m := by
  rw [compressNode.eq_def]
  simp [c1Root, c1RootC, c1_compress_leaf, c1_absorb_leaf, allZeroL, zeros7]

theorem c1_count_leaf (m : Method) : countRoutesNode (c1Leaf m) = 1 := by
  rw [countRoutesNode.eq_def]
  cases m <;> simp [c1Leaf] <;> decide

theorem c1_count_root (l : Bytes) (m : Method) : countRoutesNode (c1Root l m) = 1 := by
  rw [countRoutesNode.eq_def]
  simp [c1Root, c1_count_leaf, zeros7]

theorem c1_finalize (l : Bytes) (m : Method) :
    finalizeTree ⟨c1Root l m, false, 1, [some 0], defaultRouterOptions, false, emptyMaps⟩ =
      ⟨c1RootC l m, true, 1, [], defaultRouterOptions, false, emptyMaps⟩ := by
  unfold finalizeTree staticMapFlag
  simp only [Bool.false_eq_true, if_false]
  rw [c1_compress_root, c1_count_root]
  simp [defaultRouterOptions]

theorem c1_fromNode_leaf (m : Method) : fromNode (c1Leaf m) = c1RoLeaf m := by
  rw [fromNode.eq_def]
  simp [c1Leaf, c1RoLeaf]

theorem c1_fromNode_root (l : Bytes) (m : Method) :
    fromNode (c1RootC l m) = c1Ro l m := by
  rw [fromNode.eq_def]
  simp [c1RootC, c1Ro, c1_fromNode_leaf]

theorem c1_snap (l : Bytes) (m : Method) :
    snapshotOf (finalizeTree
      ⟨c1Root l m, false, 1, [some 0], defaultRouterOptions, false, emptyMaps⟩) =
      ⟨emptyMaps, c1Ro l m⟩ := by
  rw [c1_finalize]
  unfold snapshotOf
  rw [show (⟨c1RootC l m, true, 1, [], defaultRouterOptions, false, emptyMaps⟩ :
    MTree).root = c1RootC l m from rfl]
  rw [c1_fromNode_root]

theorem leadsWith_self : ∀ (l2 : Bytes), leadsWith l2 l2 = true := by
  intro l2
  induction l2 with
  | nil => rfl
  | cons b r ih =>
    rw [leadsWith]
    simp [ih]

theorem c1_roSize_leaf (m : Method) : roSize (c1RoLeaf m) = 1 := by
  rw [roSize.eq_def]
  simp [c1RoLeaf]

theorem c1_roSize (l : Bytes) (m : Method) : roSize (c1Ro l m) = 2 := by
  rw [roSize.eq_def]
  simp [c1Ro, c1_roSize_leaf]

theorem c1_skip0 (l : Bytes) : skipSlashes (47 :: l) 0 = 1 := by
  unfold skipSlashes
  rw [if_pos ⟨by simp, rfl⟩]

theorem c1_skipEnd (l : Bytes) : skipSlashes (47 :: l) (1 + l.length) = 1 + l.length := by
  unfold skipSlashes
  rw [if_neg (fun hc => by
    have hlt := hc.1
    simp at hlt
    omega)]

theorem c1_findFrom (l : Bytes) (m : Method) :
    findFrom (c1Ro l m) m (47 :: l) 0 [] = some (0, []) := by
  rw [findFrom, c1_roSize]
  rw [show (2 : Nat) = 1 + 1 from rfl]
  rw [findFromF]
  unfold findStep
  rw [show (c1Ro l m).fusedE = some l from rfl]
  dsimp only
  rw [c1_skip0]
  rw [show (47 :: l).drop 1 = l from rfl]
  rw [leadsWith_self, if_pos rfl]
  rw [show aFind (c1Ro l m).statics [] = some (c1RoLeaf m) from rfl]
  dsimp only
  rw [show (1 : Nat) = 0 + 1 from rfl]
  rw [findFromF]
  unfold findStep
  rw [show (c1RoLeaf m).fusedE = none from rfl]
  dsimp only
  rw [c1_skipEnd]
  rw [if_pos (by simp [Nat.add_comm])]
  unfold handleEnd
  have hget1 : (c1RoLeaf m).routesL.getD m.idx 0 = 1 := c1_leaf_getD m
  rw [hget1]
  rw [if_pos (by decide)]

theorem c1_findRO (l : Bytes) (m : Method)
    (hnorm : normalizeDefault (47 :: l) = .ok (47 :: l)) :
    findRO ⟨emptyMaps, c1Ro l m⟩ m (47 :: l) = .ok (0, []) := by
  unfold findRO
  rw [hnorm]
  have hget : (emptyMaps.getD m.idx []) = ([] : List (Bytes × Nat)) := by
    cases m <;> rfl
  rw [show (⟨emptyMaps, c1Ro l m⟩ : Snapshot).maps = emptyMaps from rfl, hget]
  dsimp only
  rw [show aFind ([] : List (Bytes × Nat)) (47 :: l) = none from rfl]
  dsimp only
  rw [c1_findFrom]

/-- With default options the static full map stays off (one route is
far below the 50-route auto threshold), and the round trip does hold
for a fresh router and a single static route: for every method and
every single-segment path `/l` of printable ASCII outside the
pattern/normalizer metacharacters and within the 255-byte cap, `add`
returns key 0 and the sealed `find` returns `Ok((0, []))`.  This is
the map-off baseline against which
`C1_static_map_returns_undecoded_key` exhibits the static-map
off-by-one. -/
theorem roundtrip_static_segment_default (l : Bytes) (m : Method)
    (hne : l ≠ []) (hlen : l.length ≤ 255)
    (hb : ∀ b ∈ l, 32 < b ∧ b < 128 ∧ b ≠ 37 ∧ b ≠ 40 ∧ b ≠ 41 ∧ b ≠ 42 ∧ b ≠ 46 ∧
      b ≠ 47 ∧ b ≠ 58) :
    (routerAdd (routerNew defaultRouterOptions) 0 m (47 :: l)).1 = .ok 0 ∧
    routerFind (routerSeal (routerAdd (routerNew defaultRouterOptions) 0 m (47 :: l)).2) m
      (47 :: l) = .ok (0, []) := by
  have h42 : l ≠ [42] := by
    intro hc
    exact (hb 42 (by rw [hc]; exact List.mem_cons_self 42 [])).2.2.2.2.2.1 rfl
  have hin := c1_insert l m hne hlen h42 hb
  have hadd : routerAdd (routerNew defaultRouterOptions) 0 m (47 :: l) =
      ((insertTree (freshTree defaultRouterOptions) 0 m (47 :: l)).1,
       ⟨(insertTree (freshTree defaultRouterOptions) 0 m (47 :: l)).2, none⟩) := rfl
  have hfst := congrArg Prod.fst hin
  have hsnd := congrArg Prod.snd hin
  constructor
  · rw [hadd]
    exact hfst
  · have hr2 : (routerAdd (routerNew defaultRouterOptions) 0 m (47 :: l)).2 =
        ⟨⟨c1Root l m, false, 1, [some 0], defaultRouterOptions, false, emptyMaps⟩, none⟩ := by
      rw [hadd]
      rw [show (((insertTree (freshTree defaultRouterOptions) 0 m (47 :: l)).1,
        (⟨(insertTree (freshTree defaultRouterOptions) 0 m (47 :: l)).2, none⟩ : Router)) :
          (Except ErrCode Nat) × Router).2 =
        (⟨(insertTree (freshTree defaultRouterOptions) 0 m (47 :: l)).2, none⟩ : Router)
        from rfl]
      rw [hsnd]
    rw [hr2]
    have hwire : routerFind (routerSeal
        ⟨⟨c1Root l m, false, 1, [some 0], defaultRouterOptions, false, emptyMaps⟩, none⟩) m
        (47 :: l) =
        findRO (snapshotOf (finalizeTree
          ⟨c1Root l m, false, 1, [some 0], defaultRouterOptions, false, emptyMaps⟩)) m
          (47 :: l) := rfl
    rw [hwire, c1_snap]
    have hnorm : normalizeDefault (47 :: l) = .ok (47 :: l) := by
      unfold normalizeDefault
      exact normalizePath_plain l hne
        (fun b h => ⟨(hb b h).1, (hb b h).2.1, (hb b h).2.2.1,
          (hb b h).2.2.2.2.2.2.1, (hb b h).2.2.2.2.2.2.2.1⟩)
    exact c1_findRO l m hnorm


/-- `RouterTuning` with `enable_static_route_full_mapping = true`
(`lib.rs:136-151`, exercised by the `router_options` test); the
50-route auto-optimization path sets the same flag at finalize. -/
def smOpts : RouterOptions := ⟨true, true⟩

def c1mRouter : Router := (routerAdd (routerNew smOpts) 0 Method.get (bstr "/a")).2

/-- The per-method full map built by `collect_static` for the single
route `GET /a` (key 0): the stored value is the raw `routes[GET]`
entry, i.e. the `+1`-encoded `1`, not the key `0`
(`static_map.rs:23`). -/
def smMaps : StaticMaps := [[([47, 97], 1)], [], [], [], [], [], []]

theorem sm_collect_leaf :
    collectStatic (c1Leaf Method.get) [47, 97] emptyMaps = smMaps := by
  rw [collectStatic.eq_def]
  decide

theorem sm_collect_root :
    collectStatic (c1RootC [97] Method.get) [] emptyMaps = smMaps := by
  rw [collectStatic.eq_def]
  exact sm_collect_leaf

theorem sm_finalize : finalizeTree c1mRouter.tree =
    ⟨c1RootC [97] Method.get, true, 1, [], smOpts, true, smMaps⟩ := by
  unfold finalizeTree staticMapFlag
  rw [show c1mRouter.tree.sealed = false from rfl]
  simp only [Bool.false_eq_true, if_false]
  rw [show c1mRouter.tree.root = c1Root [97] Method.get from rfl]
  rw [c1_compress_root]
  rw [show c1mRouter.tree.staticFlagP = true from rfl]
  simp only [Bool.true_or, if_pos rfl]
  rw [sm_collect_root]
  rfl

theorem sm_snap : snapshotOf (finalizeTree c1mRouter.tree) =
    ⟨smMaps, c1Ro [97] Method.get⟩ := by
  rw [sm_finalize]
  unfold snapshotOf
  rw [show (⟨c1RootC [97] Method.get, true, 1, [], smOpts, true, smMaps⟩ : MTree).root =
    c1RootC [97] Method.get from rfl]
  rw [c1_fromNode_root]

theorem sm_find : findRO ⟨smMaps, c1Ro [97] Method.get⟩ Method.get (bstr "/a") =
    .ok (1, []) := by
  decide

/-- **C1.** The spec'd round trip `find(m, P_norm) = (key_of_P, caps)`
is broken by the static full map: `collect_static` inserts the raw
`+1`-encoded `routes[method]` value into the per-method map
(`static_map.rs:23`) and `RouterReadOnly::find` returns the mapped
value without decoding it (`readonly.rs:90-92`).  With
`enable_static_route_full_mapping` set — or equally once 50 static
routes trigger the default auto-optimization — `add(GET, "/a")`
returns key 0 but the sealed `find(GET, "/a")` returns `Ok((1, []))`,
the encoded value; the same route under default options (map off)
correctly returns `Ok((0, []))`, isolating the map lookup as the
culprit. -/
theorem C1_static_map_returns_undecoded_key :
    (routerAdd (routerNew smOpts) 0 Method.get (bstr "/a")).1 = .ok 0 ∧
    routerFind (routerSeal (routerAdd (routerNew smOpts) 0 Method.get (bstr "/a")).2)
      Method.get (bstr "/a") = .ok (1, []) ∧
    routerFind (routerSeal (routerAdd (routerNew defaultRouterOptions) 0 Method.get
      (bstr "/a")).2) Method.get (bstr "/a") = .ok (0, []) := by
  refine ⟨by decide, ?_, ?_⟩
  · have hwire : routerFind (routerSeal
        (routerAdd (routerNew smOpts) 0 Method.get (bstr "/a")).2) Method.get (bstr "/a") =
        findRO (snapshotOf (finalizeTree c1mRouter.tree)) Method.get (bstr "/a") := rfl
    rw [hwire, sm_snap, sm_find]
  · exact (roundtrip_static_segment_default [97] Method.get (by decide) (by decide)
      (by decide)).2
